import Mathlib

/-
  Verification development for the `succtree` crate (`src/lib.rs`): a
  64-ary layered bitmap ("van Emde Boas style") set over `[0, N)` with
  insert, delete, successor, range query, min and emptiness test.

  The tree is modelled shallowly: `STree` is the `tree : Vec<Vec<usize>>`
  field, a list of layers, each layer a list of 64-bit words represented
  as `Nat` (all reachable states keep every word `< 2^64`).  `usize` is
  taken to be 64 bits wide (`BLOCK_SIZE_BYTES = size_of::<usize>() * 8 =
  64` on the 64-bit targets the tests assume).  Rust's bounded `for`
  loops and `while` loops are translated as structural recursion on an
  explicit fuel that equals the source loop's iteration bound, so the
  Lean functions compute exactly what the Rust loops compute.  Indexing
  panics (`tree[i][j]` out of bounds, and the underflow of the loop
  bound `self.tree.len() - 2` on a one-layer tree) are modelled by the
  `Checked` variants returning `none`; the unchecked functions use
  `getD`-style total indexing and agree with the source whenever no
  panic occurs.
-/

namespace SuccTreeModel

/-- Ceiling division `⌈a / b⌉` on exact integers, the reference form of
the source's layer sizing.  The source itself computes
`((size as f64) / block_size_f64.powi(i)).ceil()` followed by
`(layer_size / block_size_f64).ceil()`, which agrees with this exact
ceiling division only while `size` is exactly representable in `f64`
(`size ≤ 2^53`); see `wordsInLayer` for the divergence above that. -/
def cdiv (a b : Nat) : Nat := (a + b - 1) / b

/-- Fuel-driven ceiling logarithm base 64: `clog64Go fuel n` computes the
least `k` with `n ≤ 64 ^ k` provided `n ≤ fuel`. -/
def clog64Go : Nat → Nat → Nat
  | 0, _ => 0
  | fuel + 1, n => if n ≤ 1 then 0 else clog64Go fuel (cdiv n 64) + 1

/-- Ceiling logarithm base 64 (for `n ≥ 1`): least `k` with `n ≤ 64 ^ k`,
the exact value of `ceil(log64 n)`.  The source computes
`(size as f64).log(64.0).ceil() as usize` instead, which can differ from
the exact value — see `layers` for where. -/
def clog64 (n : Nat) : Nat := clog64Go n n

/-- Number of layers: the exact form `ceil(log64 size) + 1` of the
source's `(size as f64).log(block_size_f64).ceil() as usize + 1`.  The
two agree at every capacity this file evaluates concretely (0, 1, 2, 64,
100, 4096 and 1000000; for `size = 0` the `f64` expression yields `-inf`
and the saturating cast gives `0`, matching `clog64 0 = 0`), but they do
NOT agree everywhere: at `size = 64^7` the `f64` quotient
`fl(ln (64^7)) / fl(ln 64)` rounds one ulp above 7, its ceiling is 8,
and the program allocates 9 layers where this exact model has
`layers (64^7) = 8` — see C6.  Theorems quantifying over all sizes are
therefore statements about the exact sizing, not the program's `f64`
sizing. -/
def layers (size : Nat) : Nat := clog64 size + 1

/-- Words allocated for layer `l`: the exact form
`ceil(ceil(size / 64^l) / 64)` of the source's two chained `f64` ceiling
divisions.  For `size ≤ 2^53` the `f64` computation is exact (the cast
`size as f64` is exact and division by a power of two rounds nothing
away at these magnitudes), so the two agree; above `2^53` the cast
rounds, e.g. capacity `2^53 + 1` is cast to `2^53` (ties to even) and
the program allocates `2^47` layer-0 words where this exact formula
gives `2^47 + 1` — see C1 and C6. -/
def wordsInLayer (size l : Nat) : Nat := cdiv (cdiv size (64 ^ l)) 64

/-- The `tree : Vec<Vec<usize>>` field of `SuccTree`. -/
abbrev STree := List (List Nat)

/-- `SuccTree::new` under the exact-arithmetic sizing: `layers`
zero-filled layers, layer `i` of `wordsInLayer size i` words.  The
program's `f64` sizing agrees at every capacity this file evaluates
concretely, but diverges at the capacities noted in `layers` and
`wordsInLayer`; the concrete theorems below therefore use only
capacities where the two coincide, and the shape-independent theorems
(C8, C10) avoid `new` altogether. -/
def new (size : Nat) : STree :=
  (List.range (layers size)).map fun i => List.replicate (wordsInLayer size i) 0

/-- The word `self.tree[l][i]` (0 when out of bounds; the checked
operations account for the panic). -/
def wordAt (t : STree) (l i : Nat) : Nat := (t.getD l []).getD i 0

/-- Bit `p` of layer `l`: bit `p % 64` of word `p / 64`. -/
def bitAt (t : STree) (l p : Nat) : Bool := (wordAt t l (p / 64)).testBit (p % 64)

/-- Replace word `i` of layer `l`. -/
def updWord (t : STree) (l i w : Nat) : STree := t.set l ((t.getD l []).set i w)

/-- Bitwise complement on 64-bit words: Rust's `!mask` on `usize` is
`mask XOR (2^64 - 1)`. -/
def not64 (m : Nat) : Nat := m ^^^ (2 ^ 64 - 1)

/-- `self.tree[layer][item / 64] |= 1 << item % 64`. -/
def setBitOp (t : STree) (layer item : Nat) : STree :=
  updWord t layer (item / 64) (wordAt t layer (item / 64) ||| (1 <<< (item % 64)))

/-- `self.tree[layer][item / 64] &= !(1 << item % 64)`. -/
def clearBitOp (t : STree) (layer item : Nat) : STree :=
  updWord t layer (item / 64) (wordAt t layer (item / 64) &&& not64 (1 <<< (item % 64)))

/-- `SuccTree::move_up_layer`. -/
def move_up_layer (item : Nat) : Nat := item / 64

/-- `SuccTree::move_down`. -/
def move_down (item : Nat) : Nat := item * 64

/-- `SuccTree::is_parent_set`: `self.tree[layer][item / 64] & 1 << item % 64 != 0`. -/
def is_parent_set (t : STree) (layer item : Nat) : Bool :=
  wordAt t layer (item / 64) &&& (1 <<< (item % 64)) != 0

/-- `SuccTree::is_any_sibling_set`: `self.tree[layer][item / 64] != 0`. -/
def is_any_sibling_set (t : STree) (layer item : Nat) : Bool :=
  wordAt t layer (item / 64) != 0

/-- Body of the `for layer in 0..=(self.tree.len() - 2)` loop of
`SuccTree::insert`; the fuel is the iteration count `len - 1`. -/
def insertLoop : STree → Nat → Nat → Nat → STree
  | t, _, _, 0 => t
  | t, item, layer, fuel + 1 =>
    let t1 := setBitOp t layer item
    let item1 := move_up_layer item
    if is_parent_set t1 (layer + 1) item1 then t1
    else insertLoop t1 item1 (layer + 1) fuel

/-- `SuccTree::insert` (total model; faithful whenever the tree has at
least two layers — with a single layer the source loop bound
`self.tree.len() - 2` underflows and the call panics, see
`insertChecked`). -/
def insert (t : STree) (item : Nat) : STree := insertLoop t item 0 (t.length - 1)

/-- Body of the `for layer in 0..=(self.tree.len() - 2)` loop of
`SuccTree::delete`. -/
def deleteLoop : STree → Nat → Nat → Nat → STree
  | t, _, _, 0 => t
  | t, item, layer, fuel + 1 =>
    let t1 := clearBitOp t layer item
    if is_any_sibling_set t1 layer item then t1
    else deleteLoop t1 (move_up_layer item) (layer + 1) fuel

/-- `SuccTree::delete` (total model; see `deleteChecked` for the panics). -/
def delete (t : STree) (item : Nat) : STree := deleteLoop t item 0 (t.length - 1)

/-- Scanner for `trailingZeros`: first set bit index at or after `i`
within the next `fuel` positions, else `i + fuel`. -/
def trailingZerosGo (w i : Nat) : Nat → Nat
  | 0 => i
  | fuel + 1 => if w.testBit i then i else trailingZerosGo w (i + 1) fuel

/-- Least set bit index below 64, or 64 when none: Rust's
`usize::trailing_zeros` on a 64-bit word. -/
def trailingZeros (w : Nat) : Nat := trailingZerosGo w 0 64

/-- The mask built by the `for i in 0..=(item % 64) { mask |= 1 << i }`
loop of `greater_sibling_in_block`. -/
def maskUpTo (off : Nat) : Nat :=
  (List.range (off + 1)).foldl (fun m i => m ||| (1 <<< i)) 0

/-- `SuccTree::greater_sibling_in_block`. -/
def greater_sibling_in_block (t : STree) (layer item : Nat) : Nat :=
  let value := wordAt t layer (item / 64) &&& not64 (maskUpTo (item % 64))
  if value = 0 then 0
  else (item / 64) * 64 + trailingZeros value

/-- `SuccTree::first_item_set_in_block`. -/
def first_item_set_in_block (t : STree) (layer block : Nat) : Nat :=
  block + trailingZeros (wordAt t layer (block / 64))

/-- The `while next_sibling == 0 && layer < self.tree.len() - 1` climb of
`SuccTree::successor`; fuel `t.length` dominates the at most
`t.length - 1` iterations, so the translation is exact. -/
def climbLoop (t : STree) : Nat → Nat → Nat → Nat → Nat × Nat
  | ns, _, layer, 0 => (ns, layer)
  | ns, item, layer, fuel + 1 =>
    if ns = 0 ∧ layer < t.length - 1 then
      let item1 := move_up_layer item
      climbLoop t (greater_sibling_in_block t (layer + 1) item1) item1 (layer + 1) fuel
    else (ns, layer)

/-- The `while layer > 0` descent of `SuccTree::successor`, structurally
recursive on the layer index exactly as the loop counts it down. -/
def descendLoop (t : STree) : Nat → Nat → Nat
  | ns, 0 => ns
  | ns, layer + 1 => descendLoop t (first_item_set_in_block t layer (move_down ns)) layer

/-- `SuccTree::successor`. -/
def successor (t : STree) (item : Nat) : Option Nat :=
  let ns := greater_sibling_in_block t 0 item
  if ns ≠ 0 then some ns
  else
    let r := climbLoop t ns item 0 t.length
    if r.1 = 0 then none else some (descendLoop t r.1 r.2)

/-- The `while let Some(next_sibling) = self.successor(lower)` loop of
`SuccTree::rquery`.  `successor` returns strictly increasing values below
`upper` while the loop continues, so `upper + 1` units of fuel dominate
the iteration count and the translation is exact. -/
def rqueryLoop (t : STree) : Nat → Nat → List Nat → Nat → List Nat
  | _, _, acc, 0 => acc
  | lower, upper, acc, fuel + 1 =>
    match successor t lower with
    | none => acc
    | some ns => if ns ≥ upper then acc else rqueryLoop t ns upper (acc ++ [ns]) fuel

/-- `SuccTree::rquery`.  Note the initial presence test is the source's
`(self.tree[0][lower / BLOCK_SIZE_BYTES] & 1) == 1`, i.e. bit 0 of the
word containing `lower`, not bit `lower % 64`. -/
def rquery (t : STree) (lower upper : Nat) : List Nat :=
  let init := if wordAt t 0 (lower / 64) &&& 1 = 1 then [lower] else []
  rqueryLoop t lower upper init (upper + 1)

/-- `SuccTree::is_empty`: `self.tree[self.tree.len() - 2][0] == 0` (total
model; faithful for trees with at least two layers, see
`is_emptyChecked`). -/
def is_empty (t : STree) : Bool := wordAt t (t.length - 2) 0 == 0

/-- `SuccTree::min`. -/
def min (t : STree) : Option Nat :=
  if wordAt t 0 0 &&& 1 != 0 then some 0 else successor t 0

/-- Checked body of the insert loop: `none` models an indexing panic
(`self.tree[layer][item / 64]` or the `is_parent_set` read out of
bounds). -/
def insertLoopChecked : STree → Nat → Nat → Nat → Option STree
  | t, _, _, 0 => some t
  | t, item, layer, fuel + 1 =>
    if item / 64 < (t.getD layer []).length then
      let t1 := setBitOp t layer item
      let item1 := move_up_layer item
      if item1 / 64 < (t1.getD (layer + 1) []).length then
        if is_parent_set t1 (layer + 1) item1 then some t1
        else insertLoopChecked t1 item1 (layer + 1) fuel
      else none
    else none

/-- `SuccTree::insert` with panics modelled as `none`: on a tree with
fewer than two layers the loop bound `self.tree.len() - 2` underflows
(debug: arithmetic panic; release: wrap followed by an out-of-bounds
index panic), and inside the loop indexing can panic. -/
def insertChecked (t : STree) (item : Nat) : Option STree :=
  if 2 ≤ t.length then insertLoopChecked t item 0 (t.length - 1) else none

/-- Checked body of the delete loop. -/
def deleteLoopChecked : STree → Nat → Nat → Nat → Option STree
  | t, _, _, 0 => some t
  | t, item, layer, fuel + 1 =>
    if item / 64 < (t.getD layer []).length then
      let t1 := clearBitOp t layer item
      if is_any_sibling_set t1 layer item then some t1
      else deleteLoopChecked t1 (move_up_layer item) (layer + 1) fuel
    else none

/-- `SuccTree::delete` with panics modelled as `none`. -/
def deleteChecked (t : STree) (item : Nat) : Option STree :=
  if 2 ≤ t.length then deleteLoopChecked t item 0 (t.length - 1) else none

/-- `SuccTree::is_empty` with panics modelled as `none`: on a tree with
fewer than two layers the index `self.tree.len() - 2` underflows. -/
def is_emptyChecked (t : STree) : Option Bool :=
  if 2 ≤ t.length ∧ 0 < (t.getD (t.length - 2) []).length then
    some (wordAt t (t.length - 2) 0 == 0)
  else none

/-- States reachable from `SuccTree::new(N)` by in-range (`x < N`)
insert and delete calls that do not panic.  (A call that panics produces
no new state.) -/
inductive Reach (N : Nat) : STree → Prop
  | init : Reach N (new N)
  | ins {t t' : STree} {x : Nat} : Reach N t → x < N →
      insertChecked t x = some t' → Reach N t'
  | del {t t' : STree} {x : Nat} : Reach N t → x < N →
      deleteChecked t x = some t' → Reach N t'

/-- States reachable from an arbitrary starting tree `t0` by in-range
(`x < N`) insert and delete calls that do not panic.  Unlike `Reach`,
the starting tree is not tied to this file's sizing of `new`: whatever
word counts the program's `f64` sizing actually allocated, instantiating
`t0` with that tree makes this the reachability predicate of the running
program, since the checked operations depend only on the tree value. -/
inductive ReachFrom (N : Nat) (t0 : STree) : STree → Prop
  | init : ReachFrom N t0 t0
  | ins {t u : STree} {x : Nat} : ReachFrom N t0 t → x < N →
      insertChecked t x = some u → ReachFrom N t0 u
  | del {t u : STree} {x : Nat} : ReachFrom N t0 t → x < N →
      deleteChecked t x = some u → ReachFrom N t0 u

/-- The tree whose maintained layers `l` with `a ≤ l < b` (and
`l + 2 ≤ layers N`, i.e. below the topmost layer) carry exactly the
single chain bit `x / 64 ^ l`, all other layers all-zero: describes the
intermediate states while inserting `x` into a fresh tree (bits below
the current layer) and while deleting it again (bits at and above the
current layer). -/
def chainSeg (N x a b : Nat) : STree :=
  (List.range (layers N)).map fun l =>
    if a ≤ l ∧ l < b ∧ l + 2 ≤ layers N then
      (List.replicate (wordsInLayer N l) 0).set (x / 64 ^ l / 64) (1 <<< (x / 64 ^ l % 64))
    else List.replicate (wordsInLayer N l) 0

/-- Cross-cutting invariant on reachable trees: the shape produced by
`new`, all words 64-bit, set bits only at in-capacity positions, the
summary relation between consecutive maintained layers, and the all-zero
topmost layer (which insert and delete never write). -/
structure WF (N : Nat) (t : STree) : Prop where
  hlen : t.length = layers N
  hlayer : ∀ l, l < t.length → (t.getD l []).length = wordsInLayer N l
  hword : ∀ l i, wordAt t l i < 2 ^ 64
  hbound : ∀ l p, bitAt t l p = true → p < cdiv N (64 ^ l)
  hsum : ∀ l p, l + 3 ≤ t.length → (bitAt t (l + 1) p = true ↔ wordAt t l p ≠ 0)
  htop : ∀ i, wordAt t (t.length - 1) i = 0

/-- Postcondition of the insert propagation loop entered at a given
layer: shape preserved, bits only grow, new bits lie on the chain
`(l, x / 64 ^ l)` for maintained layers at or above the entry layer, the
summary relation is fully restored, the topmost layer stays zero, and
layers below the entry layer are untouched. -/
structure InsLoopPost (x layer : Nat) (t t' : STree) : Prop where
  hlen : t'.length = t.length
  hlayer : ∀ l, (t'.getD l []).length = (t.getD l []).length
  hword : ∀ l i, wordAt t' l i < 2 ^ 64
  hmono : ∀ l p, bitAt t l p = true → bitAt t' l p = true
  hchain : ∀ l p, bitAt t' l p = true →
    bitAt t l p = true ∨ (layer ≤ l ∧ l + 2 ≤ t.length ∧ p = x / 64 ^ l)
  hsum : ∀ l p, l + 3 ≤ t.length → (bitAt t' (l + 1) p = true ↔ wordAt t' l p ≠ 0)
  htop : ∀ i, wordAt t' (t.length - 1) i = 0
  hlow : ∀ l, l < layer → t'.getD l [] = t.getD l []

/-- Postcondition of the delete propagation loop entered at a given
layer: shape preserved, bits only shrink, removed bits lie on the chain,
the summary relation is restored, the topmost layer stays zero, and
layers below the entry layer are untouched. -/
structure DelLoopPost (x layer : Nat) (t t' : STree) : Prop where
  hlen : t'.length = t.length
  hlayer : ∀ l, (t'.getD l []).length = (t.getD l []).length
  hword : ∀ l i, wordAt t' l i < 2 ^ 64
  hanti : ∀ l p, bitAt t' l p = true → bitAt t l p = true
  hkeep : ∀ l p, bitAt t l p = true → bitAt t' l p = true ∨ (layer ≤ l ∧ p = x / 64 ^ l)
  hsum : ∀ l p, l + 3 ≤ t.length → (bitAt t' (l + 1) p = true ↔ wordAt t' l p ≠ 0)
  htop : ∀ i, wordAt t' (t.length - 1) i = 0
  hlow : ∀ l, l < layer → t'.getD l [] = t.getD l []

/-
  Arithmetic helper lemmas.
-/

theorem cdiv_eq (n d : Nat) (hn : 1 ≤ n) (hd : 0 < d) : cdiv n d = (n - 1) / d + 1 := by
  unfold cdiv
  have h : n + d - 1 = (n - 1) + d := by omega
  rw [h, Nat.add_div_right _ hd]

theorem cdiv_zero_left (d : Nat) : cdiv 0 d = 0 := by
  unfold cdiv
  rcases Nat.eq_zero_or_pos d with rfl | hd
  · rfl
  · exact Nat.div_eq_of_lt (by omega)

theorem cdiv_pos (n d : Nat) (hn : 1 ≤ n) (hd : 0 < d) : 1 ≤ cdiv n d := by
  rw [cdiv_eq n d hn hd]
  exact Nat.le_add_left 1 _

theorem div_lt_cdiv (x n d : Nat) (hx : x < n) (hd : 0 < d) : x / d < cdiv n d := by
  rw [cdiv_eq n d (by omega) hd]
  exact Nat.lt_succ_of_le (Nat.div_le_div_right (by omega))

theorem cdiv_cdiv (n a b : Nat) (ha : 0 < a) (hb : 0 < b) :
    cdiv (cdiv n a) b = cdiv n (a * b) := by
  rcases Nat.eq_zero_or_pos n with rfl | hn
  · rw [cdiv_zero_left, cdiv_zero_left, cdiv_zero_left]
  · rw [cdiv_eq n a hn ha, cdiv_eq n (a * b) hn (Nat.mul_pos ha hb),
      cdiv_eq _ b (Nat.le_add_left 1 _) hb, Nat.add_sub_cancel, Nat.div_div_eq_div_mul]

theorem wordsInLayer_eq (N l : Nat) : wordsInLayer N l = cdiv N (64 ^ (l + 1)) := by
  unfold wordsInLayer
  rw [cdiv_cdiv _ _ _ (Nat.pos_pow_of_pos l (by norm_num)) (by norm_num), pow_succ]

theorem div_pow_succ (x l : Nat) : x / 64 ^ l / 64 = x / 64 ^ (l + 1) := by
  rw [Nat.div_div_eq_div_mul, pow_succ]

theorem wordsInLayer_pos (N l : Nat) (hN : 1 ≤ N) : 1 ≤ wordsInLayer N l := by
  unfold wordsInLayer
  have h64 : (0 : Nat) < 64 ^ l := Nat.pos_pow_of_pos l (by norm_num)
  exact cdiv_pos _ _ (cdiv_pos _ _ hN h64) (by norm_num)

theorem clog64Go_eq (fuel : Nat) : ∀ n, n ≤ fuel → clog64Go fuel n = Nat.clog 64 n := by
  induction fuel with
  | zero =>
    intro n hn
    have hn0 : n = 0 := by omega
    subst hn0
    rw [Nat.clog_of_right_le_one (by omega)]
    rfl
  | succ fuel ih =>
    intro n hn
    unfold clog64Go
    by_cases h1 : n ≤ 1
    · rw [if_pos h1, Nat.clog_of_right_le_one h1]
    · rw [if_neg h1]
      have h2 : 2 ≤ n := by omega
      rw [Nat.clog_of_two_le (by norm_num) h2]
      have hc : cdiv n 64 = (n + 64 - 1) / 64 := rfl
      have hlt : (n - 1) / 64 < n - 1 := Nat.div_lt_self (by omega) (by norm_num)
      have hle : cdiv n 64 ≤ fuel := by
        rw [cdiv_eq n 64 (by omega) (by norm_num)]; omega
      rw [ih (cdiv n 64) hle, hc]

theorem clog64_eq (n : Nat) : clog64 n = Nat.clog 64 n := clog64Go_eq n n le_rfl

theorem le_pow_clog64 (n : Nat) : n ≤ 64 ^ clog64 n := by
  rw [clog64_eq]; exact Nat.le_pow_clog (by norm_num) n

theorem layers_pos (N : Nat) : 1 ≤ layers N := Nat.succ_le_succ (Nat.zero_le _)

theorem two_le_layers (N : Nat) (h : 2 ≤ N) : 2 ≤ layers N := by
  unfold layers
  rw [clog64_eq]
  have := Nat.clog_pos (b := 64) (by norm_num) h
  omega

theorem le_pow_layers (N : Nat) : N ≤ 64 ^ (layers N - 1) := by
  have : layers N - 1 = clog64 N := by unfold layers; omega
  rw [this]; exact le_pow_clog64 N

/-
  Word-level (64-bit) lemmas.
-/

theorem testBit_shl (o i : Nat) : (1 <<< o).testBit i = decide (o = i) := by
  rw [Nat.shiftLeft_eq, one_mul, Nat.testBit_two_pow]

theorem testBit_not64 (m i : Nat) :
    (not64 m).testBit i = Bool.xor (m.testBit i) (decide (i < 64)) := by
  unfold not64
  rw [Nat.testBit_xor, Nat.testBit_two_pow_sub_one]

theorem lt_two_pow_64_of_testBit (w : Nat) (h : ∀ i, 64 ≤ i → w.testBit i = false) :
    w < 2 ^ 64 := by
  have hw : w = w % 2 ^ 64 := by
    refine Nat.eq_of_testBit_eq fun i => ?_
    rw [Nat.testBit_mod_two_pow]
    by_cases hi : i < 64
    · simp [hi]
    · simp [hi, h i (by omega)]
  rw [hw]
  exact Nat.mod_lt _ (by positivity)

theorem testBit_false_of_lt64 (w i : Nat) (hw : w < 2 ^ 64) (hi : 64 ≤ i) :
    w.testBit i = false :=
  Nat.testBit_eq_false_of_lt (lt_of_lt_of_le hw (Nat.pow_le_pow_right (by norm_num) hi))

theorem eq_zero_iff_testBit (w : Nat) : w = 0 ↔ ∀ i, w.testBit i = false := by
  constructor
  · rintro rfl i; exact Nat.zero_testBit i
  · intro h
    exact Nat.eq_of_testBit_eq fun i => by rw [h i, Nat.zero_testBit]

theorem ne_zero_iff_exists_testBit (w : Nat) (hw : w < 2 ^ 64) :
    w ≠ 0 ↔ ∃ r, r < 64 ∧ w.testBit r = true := by
  constructor
  · intro h
    by_contra hc
    push_neg at hc
    refine h ((eq_zero_iff_testBit w).2 fun i => ?_)
    by_cases hi : i < 64
    · have := hc i hi
      simpa using this
    · exact testBit_false_of_lt64 w i hw (by omega)
  · rintro ⟨r, _, hr⟩ h0
    rw [h0, Nat.zero_testBit] at hr
    exact Bool.false_ne_true hr

theorem ne_zero_of_testBit (w r : Nat) (h : w.testBit r = true) : w ≠ 0 := by
  intro h0
  rw [h0, Nat.zero_testBit] at h
  exact Bool.false_ne_true h

theorem maskUpTo_succ (off : Nat) :
    maskUpTo (off + 1) = maskUpTo off ||| (1 <<< (off + 1)) := by
  unfold maskUpTo
  rw [List.range_succ, List.foldl_append]
  rfl

theorem maskUpTo_testBit (off i : Nat) : (maskUpTo off).testBit i = decide (i ≤ off) := by
  induction off with
  | zero =>
    rw [show maskUpTo 0 = 0 ||| 1 <<< 0 from rfl, Nat.testBit_lor, Nat.zero_testBit,
      testBit_shl]
    cases i with
    | zero => simp
    | succ k => simp
  | succ off ih =>
    rw [maskUpTo_succ, Nat.testBit_lor, ih, testBit_shl]
    by_cases h1 : i ≤ off <;> by_cases h2 : off + 1 = i <;> simp [h1, h2] <;> omega

theorem trailingZerosGo_spec (w : Nat) :
    ∀ fuel i,
      (trailingZerosGo w i fuel = i + fuel ∧
        ∀ j, i ≤ j → j < i + fuel → w.testBit j = false) ∨
      (trailingZerosGo w i fuel < i + fuel ∧
        i ≤ trailingZerosGo w i fuel ∧
        w.testBit (trailingZerosGo w i fuel) = true ∧
        ∀ j, i ≤ j → j < trailingZerosGo w i fuel → w.testBit j = false) := by
  intro fuel
  induction fuel with
  | zero =>
    intro i
    left
    exact ⟨rfl, fun j h1 h2 => by omega⟩
  | succ fuel ih =>
    intro i
    unfold trailingZerosGo
    by_cases hb : w.testBit i
    · right
      rw [if_pos hb]
      exact ⟨by omega, le_rfl, hb, fun j h1 h2 => by omega⟩
    · rw [if_neg hb]
      rcases ih (i + 1) with ⟨heq, hall⟩ | ⟨hlt, hge, hbit, hmin⟩
      · left
        refine ⟨by omega, fun j h1 h2 => ?_⟩
        rcases Nat.eq_or_lt_of_le h1 with rfl | h1'
        · simpa using hb
        · exact hall j h1' (by omega)
      · right
        refine ⟨by omega, by omega, hbit, fun j h1 h2 => ?_⟩
        rcases Nat.eq_or_lt_of_le h1 with rfl | h1'
        · simpa using hb
        · exact hmin j h1' h2

theorem trailingZeros_spec (w : Nat) :
    (trailingZeros w = 64 ∧ ∀ j, j < 64 → w.testBit j = false) ∨
    (trailingZeros w < 64 ∧ w.testBit (trailingZeros w) = true ∧
      ∀ j, j < trailingZeros w → w.testBit j = false) := by
  have hdef : trailingZeros w = trailingZerosGo w 0 64 := rfl
  have h := trailingZerosGo_spec w 64 0
  rw [hdef]
  rcases h with ⟨heq, hall⟩ | ⟨hlt, _, hbit, hmin⟩
  · left
    exact ⟨by omega, fun j hj => hall j (Nat.zero_le _) (by omega)⟩
  · right
    exact ⟨by omega, hbit, fun j hj => hmin j (Nat.zero_le _) hj⟩

theorem trailingZeros_of_ne_zero (w : Nat) (hw : w < 2 ^ 64) (h : w ≠ 0) :
    trailingZeros w < 64 ∧ w.testBit (trailingZeros w) = true ∧
      ∀ j, j < trailingZeros w → w.testBit j = false := by
  rcases trailingZeros_spec w with ⟨_, hall⟩ | hs
  · exfalso
    refine h ((eq_zero_iff_testBit w).2 fun i => ?_)
    by_cases hi : i < 64
    · exact hall i hi
    · exact testBit_false_of_lt64 w i hw (by omega)
  · exact hs

theorem land_shl_ne_zero_iff (w o : Nat) : (w &&& (1 <<< o) ≠ 0) ↔ w.testBit o = true := by
  constructor
  · intro h
    by_contra hb
    refine h ((eq_zero_iff_testBit _).2 fun i => ?_)
    rw [Nat.testBit_land, testBit_shl]
    by_cases hio : o = i
    · subst hio
      simp only [Bool.not_eq_true] at hb
      simp [hb]
    · simp [hio]
  · intro h h0
    have := congrArg (fun n => n.testBit o) h0
    simp only [Nat.testBit_land, testBit_shl, Nat.zero_testBit] at this
    rw [h] at this
    simp at this

theorem lor_shl_lt (w o : Nat) (hw : w < 2 ^ 64) (ho : o < 64) :
    w ||| (1 <<< o) < 2 ^ 64 := by
  refine lt_two_pow_64_of_testBit _ fun i hi => ?_
  rw [Nat.testBit_lor, testBit_false_of_lt64 w i hw hi, testBit_shl]
  simp
  omega

theorem land_lt (w m : Nat) (hw : w < 2 ^ 64) : w &&& m < 2 ^ 64 := by
  refine lt_two_pow_64_of_testBit _ fun i hi => ?_
  rw [Nat.testBit_land, testBit_false_of_lt64 w i hw hi]
  rfl

theorem lor_shl_testBit (w o i : Nat) :
    (w ||| (1 <<< o)).testBit i = (w.testBit i || decide (i = o)) := by
  rw [Nat.testBit_lor, testBit_shl, show decide (o = i) = decide (i = o) by
    simp [eq_comm]]

theorem land_not64_shl_testBit (w o i : Nat) (hw : w < 2 ^ 64) :
    (w &&& not64 (1 <<< o)).testBit i = (w.testBit i && !decide (i = o)) := by
  rw [Nat.testBit_land, testBit_not64, testBit_shl]
  by_cases hi : i < 64
  · have h64 : decide (i < 64) = true := by simp [hi]
    rw [h64, Bool.xor_true, show decide (o = i) = decide (i = o) by simp [eq_comm]]
  · rw [testBit_false_of_lt64 w i hw (by omega)]
    simp

theorem lor_shl_self (w o : Nat) (h : w.testBit o = true) : w ||| (1 <<< o) = w := by
  refine Nat.eq_of_testBit_eq fun i => ?_
  rw [lor_shl_testBit]
  by_cases hio : i = o
  · subst hio; simp [h]
  · simp [hio]

theorem land_not64_shl_self (w o : Nat) (hw : w < 2 ^ 64) (h : w.testBit o = false) :
    w &&& not64 (1 <<< o) = w := by
  refine Nat.eq_of_testBit_eq fun i => ?_
  rw [land_not64_shl_testBit w o i hw]
  by_cases hio : i = o
  · subst hio; simp [h]
  · simp [hio]

theorem land_not64_lt (w m : Nat) (hw : w < 2 ^ 64) : w &&& not64 m < 2 ^ 64 :=
  land_lt w (not64 m) hw

/-
  List access helper lemmas.
-/

theorem getD_of_le {α : Type} (xs : List α) (i : Nat) (d : α) (h : xs.length ≤ i) :
    xs.getD i d = d := by
  rw [List.getD_eq_getElem?_getD, List.getElem?_eq_none_iff.mpr h]
  rfl

theorem getD_set {α : Type} (xs : List α) (i j : Nat) (v d : α) :
    (xs.set i v).getD j d = if i = j ∧ i < xs.length then v else xs.getD j d := by
  by_cases hij : i = j
  · subst hij
    by_cases h : i < xs.length
    · rw [if_pos ⟨rfl, h⟩, List.getD_eq_getElem?_getD, List.getElem?_set_self h,
        Option.getD_some]
    · rw [if_neg (fun hc => h hc.2), List.set_eq_of_length_le (by omega)]
  · rw [if_neg (fun hc => hij hc.1), List.getD_eq_getElem?_getD, List.getElem?_set_ne hij,
      ← List.getD_eq_getElem?_getD]

theorem set_getD_self {α : Type} (xs : List α) (i : Nat) (d : α) (h : i < xs.length) :
    xs.set i (xs.getD i d) = xs := by
  apply List.ext_getElem
  · simp
  · intro j h1 h2
    rw [List.getElem_set]
    by_cases hij : i = j
    · subst hij
      rw [if_pos rfl, List.getD_eq_getElem?_getD, List.getElem?_eq_getElem h2,
        Option.getD_some]
    · rw [if_neg hij]

theorem getD_replicate (n i : Nat) : (List.replicate n (0 : Nat)).getD i 0 = 0 := by
  by_cases h : i < n
  · rw [List.getD_eq_getElem?_getD, List.getElem?_eq_getElem (by simpa using h)]
    simp [List.getElem_replicate]
  · rw [getD_of_le _ _ _ (by simpa using not_lt.1 h)]

/-
  Tree access lemmas.
-/

theorem length_updWord (t : STree) (l i w : Nat) : (updWord t l i w).length = t.length := by
  unfold updWord
  exact List.length_set t l _

theorem getD_updWord (t : STree) (l i w l' : Nat) :
    (updWord t l i w).getD l' [] =
      if l = l' ∧ l < t.length then (t.getD l []).set i w else t.getD l' [] := by
  unfold updWord
  exact getD_set t l l' _ []

theorem layerLen_updWord (t : STree) (l i w l' : Nat) :
    ((updWord t l i w).getD l' []).length = (t.getD l' []).length := by
  rw [getD_updWord]
  split_ifs with h
  · obtain ⟨rfl, _⟩ := h
    exact List.length_set _ _ _
  · rfl

theorem wordAt_updWord (t : STree) (l i w l' i' : Nat) :
    wordAt (updWord t l i w) l' i' =
      if l = l' ∧ i = i' ∧ l < t.length ∧ i < (t.getD l []).length then w
      else wordAt t l' i' := by
  unfold wordAt
  rw [getD_updWord]
  split_ifs with h1 h2 h2
  · obtain ⟨hll, hl⟩ := h1
    obtain ⟨_, hii, _, hilen⟩ := h2
    subst hll; subst hii
    rw [getD_set, if_pos ⟨rfl, hilen⟩]
  · obtain ⟨hll, hl⟩ := h1
    subst hll
    rw [getD_set, if_neg (fun hc => h2 ⟨rfl, hc.1, hl, hc.2⟩)]
  · obtain ⟨hll, hii, hl, hilen⟩ := h2
    exact absurd ⟨hll, hl⟩ h1
  · rfl

theorem updWord_self (t : STree) (l i : Nat) : updWord t l i (wordAt t l i) = t := by
  unfold updWord wordAt
  by_cases hl : l < t.length
  · by_cases hi : i < (t.getD l []).length
    · rw [set_getD_self _ _ _ hi, set_getD_self _ _ _ hl]
    · rw [List.set_eq_of_length_le (not_lt.1 hi), set_getD_self _ _ _ hl]
  · rw [List.set_eq_of_length_le (not_lt.1 hl)]

theorem wordAt_of_layer_le (t : STree) (l i : Nat) (h : t.length ≤ l) : wordAt t l i = 0 := by
  unfold wordAt
  rw [getD_of_le _ _ _ h]
  rfl

theorem wordAt_of_word_le (t : STree) (l i : Nat) (h : (t.getD l []).length ≤ i) :
    wordAt t l i = 0 :=
  getD_of_le _ _ _ h

theorem bitAt_of_layer_le (t : STree) (l p : Nat) (h : t.length ≤ l) : bitAt t l p = false := by
  unfold bitAt
  rw [wordAt_of_layer_le t l _ h]
  exact Nat.zero_testBit _

/-
  Lemmas about the freshly constructed tree.
-/

theorem length_new (N : Nat) : (new N).length = layers N := by
  unfold new
  rw [List.length_map, List.length_range]

theorem getD_new (N l : Nat) :
    (new N).getD l [] =
      if l < layers N then List.replicate (wordsInLayer N l) 0 else [] := by
  unfold new
  by_cases h : l < layers N
  · rw [if_pos h, List.getD_eq_getElem?_getD, List.getElem?_map, List.getElem?_range h]
    rfl
  · rw [if_neg h, getD_of_le]
    rw [List.length_map, List.length_range]
    omega

theorem layerLen_new (N l : Nat) (h : l < layers N) :
    ((new N).getD l []).length = wordsInLayer N l := by
  rw [getD_new, if_pos h, List.length_replicate]

theorem wordAt_new (N l i : Nat) : wordAt (new N) l i = 0 := by
  unfold wordAt
  rw [getD_new]
  split_ifs with h
  · exact getD_replicate _ _
  · rfl

theorem bitAt_new (N l p : Nat) : bitAt (new N) l p = false := by
  unfold bitAt
  rw [wordAt_new]
  exact Nat.zero_testBit _

/-
  Effect of the single-bit mutation primitives.
-/

theorem bitAt_setBitOp (t : STree) (layer item l p : Nat)
    (hl : layer < t.length) (hi : item / 64 < (t.getD layer []).length) :
    bitAt (setBitOp t layer item) l p = (bitAt t l p || decide (l = layer ∧ p = item)) := by
  unfold bitAt setBitOp
  rw [wordAt_updWord]
  by_cases hc : layer = l ∧ item / 64 = p / 64
  · obtain ⟨h1, h2⟩ := hc
    subst h1
    rw [if_pos ⟨rfl, h2, hl, hi⟩, ← h2, lor_shl_testBit]
    by_cases hpm : p % 64 = item % 64
    · have hpi : p = item := by omega
      simp [hpi, hpm]
    · have hpi : ¬p = item := fun h => hpm (by rw [h])
      simp [hpm, hpi]
  · rw [if_neg (fun hfull => hc ⟨hfull.1, hfull.2.1⟩)]
    have hne : ¬(l = layer ∧ p = item) := by
      rintro ⟨ha, hb⟩
      exact hc ⟨ha.symm, by rw [hb]⟩
    simp [hne]

theorem bitAt_clearBitOp (t : STree) (layer item l p : Nat)
    (hl : layer < t.length) (hi : item / 64 < (t.getD layer []).length)
    (hw : wordAt t layer (item / 64) < 2 ^ 64) :
    bitAt (clearBitOp t layer item) l p =
      (bitAt t l p && !decide (l = layer ∧ p = item)) := by
  unfold bitAt clearBitOp
  rw [wordAt_updWord]
  by_cases hc : layer = l ∧ item / 64 = p / 64
  · obtain ⟨h1, h2⟩ := hc
    subst h1
    rw [if_pos ⟨rfl, h2, hl, hi⟩, ← h2, land_not64_shl_testBit _ _ _ hw]
    by_cases hpm : p % 64 = item % 64
    · have hpi : p = item := by omega
      simp [hpi, hpm]
    · have hpi : ¬p = item := fun h => hpm (by rw [h])
      simp [hpm, hpi]
  · rw [if_neg (fun hfull => hc ⟨hfull.1, hfull.2.1⟩)]
    have hne : ¬(l = layer ∧ p = item) := by
      rintro ⟨ha, hb⟩
      exact hc ⟨ha.symm, by rw [hb]⟩
    simp [hne]

theorem wordAt_setBitOp (t : STree) (layer item l' i' : Nat)
    (hl : layer < t.length) (hi : item / 64 < (t.getD layer []).length) :
    wordAt (setBitOp t layer item) l' i' =
      if layer = l' ∧ item / 64 = i' then wordAt t layer (item / 64) ||| (1 <<< (item % 64))
      else wordAt t l' i' := by
  unfold setBitOp
  rw [wordAt_updWord]
  by_cases hc : layer = l' ∧ item / 64 = i'
  · rw [if_pos ⟨hc.1, hc.2, hl, hi⟩, if_pos hc]
  · rw [if_neg (fun hfull => hc ⟨hfull.1, hfull.2.1⟩), if_neg hc]

theorem wordAt_clearBitOp (t : STree) (layer item l' i' : Nat)
    (hl : layer < t.length) (hi : item / 64 < (t.getD layer []).length) :
    wordAt (clearBitOp t layer item) l' i' =
      if layer = l' ∧ item / 64 = i' then
        wordAt t layer (item / 64) &&& not64 (1 <<< (item % 64))
      else wordAt t l' i' := by
  unfold clearBitOp
  rw [wordAt_updWord]
  by_cases hc : layer = l' ∧ item / 64 = i'
  · rw [if_pos ⟨hc.1, hc.2, hl, hi⟩, if_pos hc]
  · rw [if_neg (fun hfull => hc ⟨hfull.1, hfull.2.1⟩), if_neg hc]

theorem setBitOp_of_mem (t : STree) (layer item : Nat) (h : bitAt t layer item = true) :
    setBitOp t layer item = t := by
  unfold setBitOp
  unfold bitAt at h
  rw [lor_shl_self _ _ h, updWord_self]

theorem clearBitOp_of_not_mem (t : STree) (layer item : Nat)
    (hw : wordAt t layer (item / 64) < 2 ^ 64) (h : bitAt t layer item = false) :
    clearBitOp t layer item = t := by
  unfold clearBitOp
  unfold bitAt at h
  rw [land_not64_shl_self _ _ hw h, updWord_self]

theorem length_setBitOp (t : STree) (layer item : Nat) :
    (setBitOp t layer item).length = t.length := length_updWord _ _ _ _

theorem length_clearBitOp (t : STree) (layer item : Nat) :
    (clearBitOp t layer item).length = t.length := length_updWord _ _ _ _

theorem layerLen_setBitOp (t : STree) (layer item l' : Nat) :
    ((setBitOp t layer item).getD l' []).length = (t.getD l' []).length :=
  layerLen_updWord _ _ _ _ _

theorem layerLen_clearBitOp (t : STree) (layer item l' : Nat) :
    ((clearBitOp t layer item).getD l' []).length = (t.getD l' []).length :=
  layerLen_updWord _ _ _ _ _

theorem wordAt_setBitOp_lt (t : STree) (layer item l' i' : Nat)
    (hw : ∀ l i, wordAt t l i < 2 ^ 64) :
    wordAt (setBitOp t layer item) l' i' < 2 ^ 64 := by
  unfold setBitOp
  rw [wordAt_updWord]
  split_ifs
  · exact lor_shl_lt _ _ (hw _ _) (Nat.mod_lt _ (by norm_num))
  · exact hw _ _

theorem wordAt_clearBitOp_lt (t : STree) (layer item l' i' : Nat)
    (hw : ∀ l i, wordAt t l i < 2 ^ 64) :
    wordAt (clearBitOp t layer item) l' i' < 2 ^ 64 := by
  unfold clearBitOp
  rw [wordAt_updWord]
  split_ifs
  · exact land_not64_lt _ _ (hw _ _)
  · exact hw _ _

theorem cdiv_one (n : Nat) : cdiv n 1 = n := by
  unfold cdiv
  simp

theorem new_WF (N : Nat) : WF N (new N) := by
  refine ⟨length_new N, ?_, ?_, ?_, ?_, ?_⟩
  · intro l hl
    rw [length_new] at hl
    exact layerLen_new N l hl
  · intro l i
    rw [wordAt_new]
    positivity
  · intro l p h
    rw [bitAt_new] at h
    exact absurd h (by simp)
  · intro l p _
    rw [bitAt_new, wordAt_new]
    simp
  · intro i
    exact wordAt_new N _ i

/-
  One-step unfolding equations for the fuelled loops.
-/

theorem insertLoop_succ (t : STree) (item layer fuel : Nat) :
    insertLoop t item layer (fuel + 1) =
      (if is_parent_set (setBitOp t layer item) (layer + 1) (move_up_layer item)
        then setBitOp t layer item
        else insertLoop (setBitOp t layer item) (move_up_layer item) (layer + 1) fuel) := rfl

theorem deleteLoop_succ (t : STree) (item layer fuel : Nat) :
    deleteLoop t item layer (fuel + 1) =
      (if is_any_sibling_set (clearBitOp t layer item) layer item
        then clearBitOp t layer item
        else deleteLoop (clearBitOp t layer item) (move_up_layer item) (layer + 1) fuel) := rfl

theorem is_parent_set_eq (t : STree) (l item : Nat) :
    is_parent_set t l item = bitAt t l item := by
  unfold is_parent_set bitAt
  by_cases hb : (wordAt t l (item / 64)).testBit (item % 64) = true
  · rw [hb]
    have h := (land_shl_ne_zero_iff _ _).2 hb
    simp [h]
  · have hb' : (wordAt t l (item / 64)).testBit (item % 64) = false := by simpa using hb
    rw [hb']
    have hz : wordAt t l (item / 64) &&& 1 <<< (item % 64) = 0 := by
      by_contra h
      exact hb ((land_shl_ne_zero_iff _ _).1 h)
    simp [hz]

theorem is_any_sibling_set_eq (t : STree) (l item : Nat) :
    is_any_sibling_set t l item = true ↔ wordAt t l (item / 64) ≠ 0 := by
  unfold is_any_sibling_set
  simp [bne_iff_ne]

theorem getD_setBitOp_ne (t : STree) (layer item l : Nat) (h : layer ≠ l) :
    (setBitOp t layer item).getD l [] = t.getD l [] := by
  unfold setBitOp
  rw [getD_updWord, if_neg (fun hc => h hc.1)]

theorem getD_clearBitOp_ne (t : STree) (layer item l : Nat) (h : layer ≠ l) :
    (clearBitOp t layer item).getD l [] = t.getD l [] := by
  unfold clearBitOp
  rw [getD_updWord, if_neg (fun hc => h hc.1)]

theorem insertLoop_spec (N x : Nat) (hx : x < N) :
    ∀ fuel layer t,
      layer + fuel + 1 = t.length →
      t.length = layers N →
      (∀ l, l < t.length → (t.getD l []).length = wordsInLayer N l) →
      (∀ l i, wordAt t l i < 2 ^ 64) →
      (∀ l p, l + 3 ≤ t.length → ¬(l + 1 = layer ∧ p = x / 64 ^ layer) →
        (bitAt t (l + 1) p = true ↔ wordAt t l p ≠ 0)) →
      (layer ≠ 0 → layer + 2 ≤ t.length → wordAt t (layer - 1) (x / 64 ^ layer) ≠ 0) →
      (∀ i, wordAt t (t.length - 1) i = 0) →
      InsLoopPost x layer t (insertLoop t (x / 64 ^ layer) layer fuel) ∧
        (1 ≤ fuel →
          bitAt (insertLoop t (x / 64 ^ layer) layer fuel) layer (x / 64 ^ layer) = true) := by
  intro fuel
  induction fuel with
  | zero =>
    intro layer t hfuel hlen hlayer hword hsumExc hjust htop
    refine ⟨⟨rfl, fun l => rfl, hword, fun l p h => h, fun l p h => Or.inl h, ?_, htop,
      fun l _ => rfl⟩, fun h => absurd h (by omega)⟩
    intro l p hl3
    refine hsumExc l p hl3 ?_
    rintro ⟨h1, _⟩
    omega
  | succ fuel ih =>
    intro layer t hfuel hlen hlayer hword hsumExc hjust htop
    have hl : layer < t.length := by omega
    have hl2 : layer + 2 ≤ t.length := by omega
    have hi : x / 64 ^ layer / 64 < (t.getD layer []).length := by
      rw [hlayer layer hl, wordsInLayer_eq, div_pow_succ]
      exact div_lt_cdiv x N _ hx (Nat.pos_pow_of_pos _ (by norm_num))
    have hb1 : ∀ l p, bitAt (setBitOp t layer (x / 64 ^ layer)) l p =
        (bitAt t l p || decide (l = layer ∧ p = x / 64 ^ layer)) :=
      fun l p => bitAt_setBitOp t layer _ l p hl hi
    have hw1 : ∀ l i, wordAt (setBitOp t layer (x / 64 ^ layer)) l i =
        if layer = l ∧ x / 64 ^ layer / 64 = i then
          wordAt t layer (x / 64 ^ layer / 64) ||| (1 <<< (x / 64 ^ layer % 64))
        else wordAt t l i :=
      fun l i => wordAt_setBitOp t layer _ l i hl hi
    have hword1 : ∀ l i, wordAt (setBitOp t layer (x / 64 ^ layer)) l i < 2 ^ 64 :=
      fun l i => wordAt_setBitOp_lt t layer _ l i hword
    have hlen1 : (setBitOp t layer (x / 64 ^ layer)).length = t.length :=
      length_setBitOp t layer _
    have hlayer1 : ∀ l, ((setBitOp t layer (x / 64 ^ layer)).getD l []).length =
        (t.getD l []).length := fun l => layerLen_setBitOp t layer _ l
    have hself : bitAt (setBitOp t layer (x / 64 ^ layer)) layer (x / 64 ^ layer) = true := by
      rw [hb1]
      simp
    have hwordset : wordAt (setBitOp t layer (x / 64 ^ layer)) layer (x / 64 ^ layer / 64) ≠ 0 := by
      rw [hw1, if_pos ⟨rfl, rfl⟩]
      refine ne_zero_of_testBit _ (x / 64 ^ layer % 64) ?_
      rw [lor_shl_testBit]
      simp
    have hpar : is_parent_set (setBitOp t layer (x / 64 ^ layer)) (layer + 1)
        (move_up_layer (x / 64 ^ layer)) = bitAt t (layer + 1) (x / 64 ^ (layer + 1)) := by
      rw [is_parent_set_eq]
      show bitAt (setBitOp t layer (x / 64 ^ layer)) (layer + 1) (x / 64 ^ layer / 64) = _
      rw [hb1, div_pow_succ]
      have hne : ¬(layer + 1 = layer ∧ x / 64 ^ (layer + 1) = x / 64 ^ layer) := by
        rintro ⟨h, _⟩
        omega
      simp [hne]
    have hsum1 : ∀ l p, l + 3 ≤ t.length →
        ¬(l + 1 = layer + 1 ∧ p = x / 64 ^ (layer + 1)) →
        (bitAt (setBitOp t layer (x / 64 ^ layer)) (l + 1) p = true ↔
          wordAt (setBitOp t layer (x / 64 ^ layer)) l p ≠ 0) := by
      intro l p hl3 hexc
      by_cases hA : l + 1 = layer ∧ p = x / 64 ^ layer
      · obtain ⟨hA1, hA2⟩ := hA
        have hlayer_ne : layer ≠ 0 := by omega
        constructor
        · intro _
          rw [hw1, if_neg (by rintro ⟨h, _⟩; omega)]
          have hll : l = layer - 1 := by omega
          rw [hll, hA2]
          exact hjust hlayer_ne (by omega)
        · intro _
          rw [hb1, hA1, hA2]
          simp
      · by_cases hB : l = layer ∧ p = x / 64 ^ layer / 64
        · refine absurd ?_ hexc
          obtain ⟨hB1, hB2⟩ := hB
          exact ⟨by omega, by rw [hB2, div_pow_succ]⟩
        · have hbit : bitAt (setBitOp t layer (x / 64 ^ layer)) (l + 1) p = bitAt t (l + 1) p := by
            rw [hb1]
            simp [hA]
          have hword' : wordAt (setBitOp t layer (x / 64 ^ layer)) l p = wordAt t l p := by
            rw [hw1, if_neg (fun hc => hB ⟨hc.1.symm, hc.2.symm⟩)]
          rw [hbit, hword']
          exact hsumExc l p hl3 hA
    have htop1 : ∀ i, wordAt (setBitOp t layer (x / 64 ^ layer))
        ((setBitOp t layer (x / 64 ^ layer)).length - 1) i = 0 := by
      intro i
      rw [hlen1, hw1, if_neg (by rintro ⟨h, _⟩; omega)]
      exact htop i
    rw [insertLoop_succ, hpar]
    by_cases hbr : bitAt t (layer + 1) (x / 64 ^ (layer + 1)) = true
    · rw [if_pos hbr]
      refine ⟨⟨hlen1, hlayer1, hword1, ?_, ?_, ?_, fun i => by rw [← hlen1]; exact htop1 i,
        ?_⟩, fun _ => hself⟩
      · intro l p h
        rw [hb1]
        simp [h]
      · intro l p h
        rw [hb1] at h
        simp only [Bool.or_eq_true, decide_eq_true_eq] at h
        rcases h with h | ⟨h1, h2⟩
        · exact Or.inl h
        · exact Or.inr ⟨by omega, by omega, by rw [h2, h1]⟩
      · intro l p hl3
        by_cases hexc : l + 1 = layer + 1 ∧ p = x / 64 ^ (layer + 1)
        · obtain ⟨he1, he2⟩ := hexc
          have hll : l = layer := by omega
          have hwside : wordAt (setBitOp t layer (x / 64 ^ layer)) l p ≠ 0 := by
            rw [hll, he2, ← div_pow_succ]
            exact hwordset
          have hbside : bitAt (setBitOp t layer (x / 64 ^ layer)) (l + 1) p = true := by
            rw [hb1, he2, hll]
            have hne : ¬(layer + 1 = layer ∧ x / 64 ^ (layer + 1) = x / 64 ^ layer) := by
              rintro ⟨h, _⟩
              omega
            simp [hne, hbr]
          exact ⟨fun _ => hwside, fun _ => hbside⟩
        · exact hsum1 l p hl3 hexc
      · intro l hll
        exact getD_setBitOp_ne t layer _ l (by omega)
    · rw [if_neg hbr]
      simp only [move_up_layer]
      rw [div_pow_succ]
      obtain ⟨post, _⟩ := ih (layer + 1) (setBitOp t layer (x / 64 ^ layer))
        (by rw [hlen1]; omega)
        (by rw [hlen1]; exact hlen)
        (fun l hl' => by rw [hlayer1]; exact hlayer l (by rw [hlen1] at hl'; exact hl'))
        hword1
        (fun l p h3 => hsum1 l p (by rw [hlen1] at h3; exact h3))
        (fun _ _ => by
          rw [show layer + 1 - 1 = layer from rfl, ← div_pow_succ]
          exact hwordset)
        htop1
      refine ⟨⟨post.hlen.trans hlen1, fun l => (post.hlayer l).trans (hlayer1 l), post.hword,
        ?_, ?_, ?_, ?_, ?_⟩, ?_⟩
      · intro l p h
        refine post.hmono l p ?_
        rw [hb1]
        simp [h]
      · intro l p h
        rcases post.hchain l p h with h1 | ⟨hge, hl2', hp⟩
        · rw [hb1] at h1
          simp only [Bool.or_eq_true, decide_eq_true_eq] at h1
          rcases h1 with h1 | ⟨hq1, hq2⟩
          · exact Or.inl h1
          · exact Or.inr ⟨by omega, by omega, by rw [hq2, hq1]⟩
        · rw [hlen1] at hl2'
          exact Or.inr ⟨by omega, hl2', hp⟩
      · intro l p hl3
        exact post.hsum l p (by rw [hlen1]; exact hl3)
      · intro i
        have := post.htop i
        rw [hlen1] at this
        exact this
      · intro l hll
        rw [post.hlow l (by omega)]
        exact getD_setBitOp_ne t layer _ l (by omega)
      · intro _
        exact post.hmono layer (x / 64 ^ layer) hself

theorem deleteLoop_spec (N x : Nat) (hx : x < N) :
    ∀ fuel layer t,
      layer + fuel + 1 = t.length →
      t.length = layers N →
      (∀ l, l < t.length → (t.getD l []).length = wordsInLayer N l) →
      (∀ l i, wordAt t l i < 2 ^ 64) →
      (∀ l p, l + 3 ≤ t.length → ¬(l + 1 = layer ∧ p = x / 64 ^ layer) →
        (bitAt t (l + 1) p = true ↔ wordAt t l p ≠ 0)) →
      (layer ≠ 0 → wordAt t (layer - 1) (x / 64 ^ layer) = 0) →
      (∀ i, wordAt t (t.length - 1) i = 0) →
      DelLoopPost x layer t (deleteLoop t (x / 64 ^ layer) layer fuel) ∧
        (1 ≤ fuel →
          (deleteLoop t (x / 64 ^ layer) layer fuel).getD layer [] =
            (clearBitOp t layer (x / 64 ^ layer)).getD layer []) := by
  intro fuel
  induction fuel with
  | zero =>
    intro layer t hfuel hlen hlayer hword hsumExc hzero htop
    refine ⟨⟨rfl, fun l => rfl, hword, fun l p h => h, fun l p h => Or.inl h, ?_, htop,
      fun l _ => rfl⟩, fun h => absurd h (by omega)⟩
    intro l p hl3
    refine hsumExc l p hl3 ?_
    rintro ⟨h1, _⟩
    omega
  | succ fuel ih =>
    intro layer t hfuel hlen hlayer hword hsumExc hzero htop
    have hl : layer < t.length := by omega
    have hl2 : layer + 2 ≤ t.length := by omega
    have hi : x / 64 ^ layer / 64 < (t.getD layer []).length := by
      rw [hlayer layer hl, wordsInLayer_eq, div_pow_succ]
      exact div_lt_cdiv x N _ hx (Nat.pos_pow_of_pos _ (by norm_num))
    have hb1 : ∀ l p, bitAt (clearBitOp t layer (x / 64 ^ layer)) l p =
        (bitAt t l p && !decide (l = layer ∧ p = x / 64 ^ layer)) :=
      fun l p => bitAt_clearBitOp t layer _ l p hl hi (hword _ _)
    have hw1 : ∀ l i, wordAt (clearBitOp t layer (x / 64 ^ layer)) l i =
        if layer = l ∧ x / 64 ^ layer / 64 = i then
          wordAt t layer (x / 64 ^ layer / 64) &&& not64 (1 <<< (x / 64 ^ layer % 64))
        else wordAt t l i :=
      fun l i => wordAt_clearBitOp t layer _ l i hl hi
    have hword1 : ∀ l i, wordAt (clearBitOp t layer (x / 64 ^ layer)) l i < 2 ^ 64 :=
      fun l i => wordAt_clearBitOp_lt t layer _ l i hword
    have hlen1 : (clearBitOp t layer (x / 64 ^ layer)).length = t.length :=
      length_clearBitOp t layer _
    have hlayer1 : ∀ l, ((clearBitOp t layer (x / 64 ^ layer)).getD l []).length =
        (t.getD l []).length := fun l => layerLen_clearBitOp t layer _ l
    have htop1 : ∀ i, wordAt (clearBitOp t layer (x / 64 ^ layer))
        ((clearBitOp t layer (x / 64 ^ layer)).length - 1) i = 0 := by
      intro i
      rw [hlen1, hw1, if_neg (by rintro ⟨h, _⟩; omega)]
      exact htop i
    have hsum1 : ∀ l p, l + 3 ≤ t.length →
        ¬(l + 1 = layer + 1 ∧ p = x / 64 ^ (layer + 1)) →
        (bitAt (clearBitOp t layer (x / 64 ^ layer)) (l + 1) p = true ↔
          wordAt (clearBitOp t layer (x / 64 ^ layer)) l p ≠ 0) := by
      intro l p hl3 hexc
      by_cases hA : l + 1 = layer ∧ p = x / 64 ^ layer
      · obtain ⟨hA1, hA2⟩ := hA
        have hlayer_ne : layer ≠ 0 := by omega
        have hbit0 : bitAt (clearBitOp t layer (x / 64 ^ layer)) (l + 1) p = false := by
          rw [hb1, hA1, hA2]
          simp
        have hword0 : wordAt (clearBitOp t layer (x / 64 ^ layer)) l p = 0 := by
          rw [hw1, if_neg (by rintro ⟨h, _⟩; omega)]
          have hll : l = layer - 1 := by omega
          rw [hll, hA2]
          exact hzero hlayer_ne
        rw [hbit0, hword0]
        simp
      · by_cases hB : l = layer ∧ p = x / 64 ^ layer / 64
        · refine absurd ?_ hexc
          obtain ⟨hB1, hB2⟩ := hB
          exact ⟨by omega, by rw [hB2, div_pow_succ]⟩
        · have hbit : bitAt (clearBitOp t layer (x / 64 ^ layer)) (l + 1) p =
              bitAt t (l + 1) p := by
            rw [hb1]
            simp [hA]
          have hword' : wordAt (clearBitOp t layer (x / 64 ^ layer)) l p = wordAt t l p := by
            rw [hw1, if_neg (fun hc => hB ⟨hc.1.symm, hc.2.symm⟩)]
          rw [hbit, hword']
          exact hsumExc l p hl3 hA
    rw [deleteLoop_succ]
    by_cases hbr : wordAt (clearBitOp t layer (x / 64 ^ layer)) layer (x / 64 ^ layer / 64) ≠ 0
    · rw [if_pos ((is_any_sibling_set_eq _ _ _).2 hbr)]
      have hw_ne : wordAt t layer (x / 64 ^ layer / 64) ≠ 0 := by
        intro h0
        apply hbr
        rw [hw1, if_pos ⟨rfl, rfl⟩, h0]
        exact Nat.zero_and _
      refine ⟨⟨hlen1, hlayer1, hword1, ?_, ?_, ?_,
        fun i => by rw [← hlen1]; exact htop1 i,
        fun l hll => getD_clearBitOp_ne t layer _ l (by omega)⟩, fun _ => rfl⟩
      · intro l p h
        rw [hb1] at h
        simp only [Bool.and_eq_true] at h
        exact h.1
      · intro l p h
        by_cases hc : l = layer ∧ p = x / 64 ^ layer
        · exact Or.inr ⟨by omega, by rw [hc.2, hc.1]⟩
        · refine Or.inl ?_
          rw [hb1, h]
          simp [hc]
      · intro l p hl3
        by_cases hexc : l + 1 = layer + 1 ∧ p = x / 64 ^ (layer + 1)
        · obtain ⟨he1, he2⟩ := hexc
          have hll : l = layer := by omega
          have hwside : wordAt (clearBitOp t layer (x / 64 ^ layer)) l p ≠ 0 := by
            rw [hll, he2, ← div_pow_succ]
            exact hbr
          have hbside : bitAt (clearBitOp t layer (x / 64 ^ layer)) (l + 1) p = true := by
            rw [hb1, he2, hll]
            have hne : ¬(layer + 1 = layer ∧ x / 64 ^ (layer + 1) = x / 64 ^ layer) := by
              rintro ⟨h, _⟩
              omega
            have hold : bitAt t (layer + 1) (x / 64 ^ (layer + 1)) = true := by
              refine (hsumExc layer (x / 64 ^ (layer + 1)) (by omega) ?_).2 ?_
              · rintro ⟨h, _⟩
                omega
              · rw [← div_pow_succ]
                exact hw_ne
            simp [hne, hold]
          exact ⟨fun _ => hwside, fun _ => hbside⟩
        · exact hsum1 l p hl3 hexc
    · have hbz : wordAt (clearBitOp t layer (x / 64 ^ layer)) layer (x / 64 ^ layer / 64) = 0 := by
        by_contra h
        exact hbr h
      rw [if_neg (fun hc => hbr ((is_any_sibling_set_eq _ _ _).1 hc))]
      simp only [move_up_layer]
      rw [div_pow_succ]
      obtain ⟨post, _⟩ := ih (layer + 1) (clearBitOp t layer (x / 64 ^ layer))
        (by rw [hlen1]; omega)
        (by rw [hlen1]; exact hlen)
        (fun l hl' => by rw [hlayer1]; exact hlayer l (by rw [hlen1] at hl'; exact hl'))
        hword1
        (fun l p h3 => hsum1 l p (by rw [hlen1] at h3; exact h3))
        (fun _ => by
          rw [show layer + 1 - 1 = layer from rfl, ← div_pow_succ]
          exact hbz)
        htop1
      refine ⟨⟨post.hlen.trans hlen1, fun l => (post.hlayer l).trans (hlayer1 l), post.hword,
        ?_, ?_, ?_, ?_, ?_⟩, ?_⟩
      · intro l p h
        have h1 := post.hanti l p h
        rw [hb1] at h1
        simp only [Bool.and_eq_true] at h1
        exact h1.1
      · intro l p h
        by_cases hc : l = layer ∧ p = x / 64 ^ layer
        · exact Or.inr ⟨by omega, by rw [hc.2, hc.1]⟩
        · have hb' : bitAt (clearBitOp t layer (x / 64 ^ layer)) l p = true := by
            rw [hb1, h]
            simp [hc]
          rcases post.hkeep l p hb' with h' | ⟨hge, hp⟩
          · exact Or.inl h'
          · exact Or.inr ⟨by omega, hp⟩
      · intro l p hl3
        exact post.hsum l p (by rw [hlen1]; exact hl3)
      · intro i
        have := post.htop i
        rw [hlen1] at this
        exact this
      · intro l hll
        rw [post.hlow l (by omega)]
        exact getD_clearBitOp_ne t layer _ l (by omega)
      · intro _
        exact post.hlow layer (Nat.lt_succ_self layer)

/-
  Top-level wrappers for the mutation operations.
-/

theorem div_pow_zero (x : Nat) : x / 64 ^ 0 = x := by simp

theorem bitAt_congr_layer (t t' : STree) (l p : Nat)
    (h : t'.getD l [] = t.getD l []) : bitAt t' l p = bitAt t l p := by
  unfold bitAt wordAt
  rw [h]

theorem insert_spec (N x : Nat) (hx : x < N) (t : STree) (h : WF N t) :
    WF N (insert t x) ∧
      (∀ l p, bitAt t l p = true → bitAt (insert t x) l p = true) ∧
      (∀ p, bitAt (insert t x) 0 p = true → bitAt t 0 p = true ∨ p = x) ∧
      (2 ≤ t.length → bitAt (insert t x) 0 x = true) := by
  have hpos : 1 ≤ t.length := by
    rw [h.hlen]
    exact layers_pos N
  have hfuel : 0 + (t.length - 1) + 1 = t.length := by omega
  have hspec := insertLoop_spec N x hx (t.length - 1) 0 t hfuel h.hlen h.hlayer h.hword
    (fun l p h3 _ => h.hsum l p h3)
    (fun h0 _ => absurd rfl h0)
    h.htop
  rw [div_pow_zero] at hspec
  have hins : insert t x = insertLoop t x 0 (t.length - 1) := rfl
  rw [← hins] at hspec
  obtain ⟨post, hset⟩ := hspec
  refine ⟨⟨post.hlen.trans h.hlen, ?_, post.hword, ?_, ?_, ?_⟩, post.hmono, ?_, ?_⟩
  · intro l hl
    rw [post.hlayer l]
    exact h.hlayer l (by rw [post.hlen] at hl; exact hl)
  · intro l p hb
    rcases post.hchain l p hb with h1 | ⟨_, _, hp⟩
    · exact h.hbound l p h1
    · rw [hp]
      exact div_lt_cdiv x N _ hx (Nat.pos_pow_of_pos _ (by norm_num))
  · intro l p h3
    exact post.hsum l p (by rw [post.hlen] at h3; exact h3)
  · intro i
    have := post.htop i
    rw [← post.hlen] at this
    exact this
  · intro p hb
    rcases post.hchain 0 p hb with h1 | ⟨_, _, hp⟩
    · exact Or.inl h1
    · right
      rw [hp]
      exact div_pow_zero x
  · intro h2
    exact hset (by omega)

theorem insert_bit0 (N x : Nat) (hx : x < N) (t : STree) (h : WF N t)
    (h2 : 2 ≤ t.length) (p : Nat) :
    bitAt (insert t x) 0 p = (bitAt t 0 p || decide (p = x)) := by
  obtain ⟨_, hmono, hchain, hself⟩ := insert_spec N x hx t h
  by_cases hb : bitAt t 0 p = true
  · rw [hb, hmono 0 p hb]
    rfl
  · have hb' : bitAt t 0 p = false := by simpa using hb
    by_cases hpx : p = x
    · subst hpx
      rw [hself h2, hb']
      simp
    · rw [hb']
      have : bitAt (insert t x) 0 p = false := by
        by_contra hc
        have := hchain p (by simpa using hc)
        rcases this with h1 | h1
        · exact hb h1
        · exact hpx h1
      rw [this]
      simp [hpx]

theorem delete_spec (N x : Nat) (hx : x < N) (t : STree) (h : WF N t) :
    WF N (delete t x) ∧
      (∀ l p, bitAt (delete t x) l p = true → bitAt t l p = true) ∧
      (2 ≤ t.length → ∀ p,
        bitAt (delete t x) 0 p = (bitAt t 0 p && !decide (p = x))) := by
  have hpos : 1 ≤ t.length := by
    rw [h.hlen]
    exact layers_pos N
  have hfuel : 0 + (t.length - 1) + 1 = t.length := by omega
  have hspec := deleteLoop_spec N x hx (t.length - 1) 0 t hfuel h.hlen h.hlayer h.hword
    (fun l p h3 _ => h.hsum l p h3)
    (fun h0 => absurd rfl h0)
    h.htop
  rw [div_pow_zero] at hspec
  have hdel : delete t x = deleteLoop t x 0 (t.length - 1) := rfl
  rw [← hdel] at hspec
  obtain ⟨post, hset⟩ := hspec
  refine ⟨⟨post.hlen.trans h.hlen, ?_, post.hword, ?_, ?_, ?_⟩, post.hanti, ?_⟩
  · intro l hl
    rw [post.hlayer l]
    exact h.hlayer l (by rw [post.hlen] at hl; exact hl)
  · intro l p hb
    exact h.hbound l p (post.hanti l p hb)
  · intro l p h3
    exact post.hsum l p (by rw [post.hlen] at h3; exact h3)
  · intro i
    have := post.htop i
    rw [← post.hlen] at this
    exact this
  · intro h2 p
    have hl0 : (0 : Nat) < t.length := by omega
    have hi0 : x / 64 < (t.getD 0 []).length := by
      have := h.hlayer 0 hl0
      rw [this, wordsInLayer_eq]
      have : x / 64 = x / 64 ^ (0 + 1) := by norm_num
      rw [this]
      exact div_lt_cdiv x N _ hx (Nat.pos_pow_of_pos _ (by norm_num))
    have hcb := bitAt_clearBitOp t 0 x 0 p hl0 hi0 (h.hword _ _)
    have hlayer0 := hset (by omega)
    rw [bitAt_congr_layer _ _ 0 p hlayer0, hcb]
    have : decide ((0 : Nat) = 0 ∧ p = x) = decide (p = x) := by simp
    rw [this]

theorem insert_of_mem (N x : Nat) (t : STree) (h : WF N t) (hmem : bitAt t 0 x = true) :
    insert t x = t := by
  rcases Nat.lt_or_ge t.length 2 with hL | hL
  · have h0 : t.length - 1 = 0 := by omega
    show insertLoop t x 0 (t.length - 1) = t
    rw [h0]
    rfl
  · show insertLoop t x 0 (t.length - 1) = t
    obtain ⟨fuel, hfuel⟩ : ∃ fuel, t.length - 1 = fuel + 1 := ⟨t.length - 2, by omega⟩
    rw [hfuel, insertLoop_succ, setBitOp_of_mem t 0 x hmem, is_parent_set_eq]
    have hmem' : (wordAt t 0 (x / 64)).testBit (x % 64) = true := hmem
    by_cases hb : bitAt t 1 (move_up_layer x) = true
    · rw [if_pos hb]
    · rw [if_neg hb]
      have hL3 : ¬3 ≤ t.length := by
        intro h3
        apply hb
        refine (h.hsum 0 (move_up_layer x) (by omega)).2 ?_
        show wordAt t 0 (x / 64) ≠ 0
        exact ne_zero_of_testBit _ (x % 64) hmem'
      have hfuel0 : fuel = 0 := by omega
      rw [hfuel0]
      rfl

theorem deleteLoop_noop (N x : Nat) (t : STree) (h : WF N t) :
    ∀ fuel layer, bitAt t layer (x / 64 ^ layer) = false →
      deleteLoop t (x / 64 ^ layer) layer fuel = t := by
  intro fuel
  induction fuel with
  | zero =>
    intro layer _
    rfl
  | succ fuel ih =>
    intro layer hbit
    rw [deleteLoop_succ, clearBitOp_of_not_mem t layer _ (h.hword _ _) hbit]
    by_cases hbr : wordAt t layer (x / 64 ^ layer / 64) ≠ 0
    · rw [if_pos ((is_any_sibling_set_eq _ _ _).2 hbr)]
    · have hz : wordAt t layer (x / 64 ^ layer / 64) = 0 := by
        by_contra hc
        exact hbr hc
      rw [if_neg (fun hc => hbr ((is_any_sibling_set_eq _ _ _).1 hc))]
      simp only [move_up_layer]
      rw [div_pow_succ]
      refine ih (layer + 1) ?_
      have hz2 : wordAt t layer (x / 64 ^ (layer + 1)) = 0 := by
        rw [← div_pow_succ]
        exact hz
      by_cases h3 : layer + 3 ≤ t.length
      · cases hb2 : bitAt t (layer + 1) (x / 64 ^ (layer + 1)) with
        | false => rfl
        | true =>
          exact absurd hz2 ((h.hsum layer (x / 64 ^ (layer + 1)) h3).1 hb2)
      · by_cases h4 : layer + 1 < t.length
        · have he : layer + 1 = t.length - 1 := by omega
          unfold bitAt
          rw [he, h.htop]
          exact Nat.zero_testBit _
        · exact bitAt_of_layer_le t _ _ (by omega)

theorem delete_of_not_mem (N x : Nat) (t : STree) (h : WF N t)
    (hnm : bitAt t 0 x = false) : delete t x = t := by
  show deleteLoop t x 0 (t.length - 1) = t
  rw [← div_pow_zero x]
  refine deleteLoop_noop N x t h (t.length - 1) 0 ?_
  rw [div_pow_zero]
  exact hnm

/-
  Agreement of the panic-aware (checked) operations with the total
  models on well-formed trees and in-range arguments.
-/

theorem insertLoopChecked_succ (t : STree) (item layer fuel : Nat) :
    insertLoopChecked t item layer (fuel + 1) =
      (if item / 64 < (t.getD layer []).length then
        (if move_up_layer item / 64 <
            ((setBitOp t layer item).getD (layer + 1) []).length then
          (if is_parent_set (setBitOp t layer item) (layer + 1) (move_up_layer item)
            then some (setBitOp t layer item)
            else insertLoopChecked (setBitOp t layer item) (move_up_layer item)
              (layer + 1) fuel)
        else none)
      else none) := rfl

theorem deleteLoopChecked_succ (t : STree) (item layer fuel : Nat) :
    deleteLoopChecked t item layer (fuel + 1) =
      (if item / 64 < (t.getD layer []).length then
        (if is_any_sibling_set (clearBitOp t layer item) layer item
          then some (clearBitOp t layer item)
          else deleteLoopChecked (clearBitOp t layer item) (move_up_layer item)
            (layer + 1) fuel)
      else none) := rfl

theorem insertLoopChecked_eq (N x : Nat) (hx : x < N) :
    ∀ fuel layer t,
      layer + fuel + 1 = t.length →
      t.length = layers N →
      (∀ l, l < t.length → (t.getD l []).length = wordsInLayer N l) →
      insertLoopChecked t (x / 64 ^ layer) layer fuel =
        some (insertLoop t (x / 64 ^ layer) layer fuel) := by
  intro fuel
  induction fuel with
  | zero =>
    intro layer t _ _ _
    rfl
  | succ fuel ih =>
    intro layer t hfuel hlen hlayer
    have hl : layer < t.length := by omega
    have hl1 : layer + 1 < t.length := by omega
    have hi : x / 64 ^ layer / 64 < (t.getD layer []).length := by
      rw [hlayer layer hl, wordsInLayer_eq, div_pow_succ]
      exact div_lt_cdiv x N _ hx (Nat.pos_pow_of_pos _ (by norm_num))
    have hlayer1 : ∀ l, ((setBitOp t layer (x / 64 ^ layer)).getD l []).length =
        (t.getD l []).length := fun l => layerLen_setBitOp t layer _ l
    have hi2 : move_up_layer (x / 64 ^ layer) / 64 <
        ((setBitOp t layer (x / 64 ^ layer)).getD (layer + 1) []).length := by
      have e : move_up_layer (x / 64 ^ layer) / 64 = x / 64 ^ (layer + 2) := by
        show x / 64 ^ layer / 64 / 64 = _
        rw [div_pow_succ, div_pow_succ]
      rw [e, hlayer1, hlayer (layer + 1) hl1, wordsInLayer_eq]
      exact div_lt_cdiv x N _ hx (Nat.pos_pow_of_pos _ (by norm_num))
    rw [insertLoopChecked_succ, insertLoop_succ, if_pos hi, if_pos hi2]
    by_cases hb : is_parent_set (setBitOp t layer (x / 64 ^ layer)) (layer + 1)
        (move_up_layer (x / 64 ^ layer)) = true
    · rw [if_pos hb, if_pos hb]
    · rw [if_neg hb, if_neg hb]
      simp only [move_up_layer]
      rw [div_pow_succ]
      exact ih (layer + 1) (setBitOp t layer (x / 64 ^ layer))
        (by rw [length_setBitOp]; omega)
        (by rw [length_setBitOp]; exact hlen)
        (fun l hl' => by rw [hlayer1]; exact hlayer l (by rwa [length_setBitOp] at hl'))

theorem deleteLoopChecked_eq (N x : Nat) (hx : x < N) :
    ∀ fuel layer t,
      layer + fuel + 1 = t.length →
      t.length = layers N →
      (∀ l, l < t.length → (t.getD l []).length = wordsInLayer N l) →
      deleteLoopChecked t (x / 64 ^ layer) layer fuel =
        some (deleteLoop t (x / 64 ^ layer) layer fuel) := by
  intro fuel
  induction fuel with
  | zero =>
    intro layer t _ _ _
    rfl
  | succ fuel ih =>
    intro layer t hfuel hlen hlayer
    have hl : layer < t.length := by omega
    have hi : x / 64 ^ layer / 64 < (t.getD layer []).length := by
      rw [hlayer layer hl, wordsInLayer_eq, div_pow_succ]
      exact div_lt_cdiv x N _ hx (Nat.pos_pow_of_pos _ (by norm_num))
    have hlayer1 : ∀ l, ((clearBitOp t layer (x / 64 ^ layer)).getD l []).length =
        (t.getD l []).length := fun l => layerLen_clearBitOp t layer _ l
    rw [deleteLoopChecked_succ, deleteLoop_succ, if_pos hi]
    by_cases hb : is_any_sibling_set (clearBitOp t layer (x / 64 ^ layer)) layer
        (x / 64 ^ layer) = true
    · rw [if_pos hb, if_pos hb]
    · rw [if_neg hb, if_neg hb]
      simp only [move_up_layer]
      rw [div_pow_succ]
      exact ih (layer + 1) (clearBitOp t layer (x / 64 ^ layer))
        (by rw [length_clearBitOp]; omega)
        (by rw [length_clearBitOp]; exact hlen)
        (fun l hl' => by rw [hlayer1]; exact hlayer l (by rwa [length_clearBitOp] at hl'))

theorem insertChecked_eq (N x : Nat) (hx : x < N) (t : STree) (h : WF N t)
    (h2 : 2 ≤ t.length) : insertChecked t x = some (insert t x) := by
  unfold insertChecked
  rw [if_pos h2]
  have hfuel : 0 + (t.length - 1) + 1 = t.length := by omega
  have heq := insertLoopChecked_eq N x hx (t.length - 1) 0 t hfuel h.hlen h.hlayer
  rw [div_pow_zero] at heq
  exact heq

theorem deleteChecked_eq (N x : Nat) (hx : x < N) (t : STree) (h : WF N t)
    (h2 : 2 ≤ t.length) : deleteChecked t x = some (delete t x) := by
  unfold deleteChecked
  rw [if_pos h2]
  have hfuel : 0 + (t.length - 1) + 1 = t.length := by omega
  have heq := deleteLoopChecked_eq N x hx (t.length - 1) 0 t hfuel h.hlen h.hlayer
  rw [div_pow_zero] at heq
  exact heq

theorem insertChecked_none_of_short (t : STree) (x : Nat) (h : t.length < 2) :
    insertChecked t x = none := by
  unfold insertChecked
  rw [if_neg (by omega)]

theorem deleteChecked_none_of_short (t : STree) (x : Nat) (h : t.length < 2) :
    deleteChecked t x = none := by
  unfold deleteChecked
  rw [if_neg (by omega)]

theorem insertLoopChecked_zero (t : STree) (item layer : Nat) :
    insertLoopChecked t item layer 0 = some t := rfl

theorem deleteLoopChecked_zero (t : STree) (item layer : Nat) :
    deleteLoopChecked t item layer 0 = some t := rfl

theorem layer_lt_of_pos (t : STree) (layer : Nat)
    (h : 0 < (t.getD layer []).length) : layer < t.length := by
  by_contra hc
  push_neg at hc
  rw [getD_of_le t layer [] hc] at h
  simp at h

theorem insertLoopChecked_shape :
    ∀ fuel t item layer u, insertLoopChecked t item layer fuel = some u →
      u.length = t.length ∧
      (∀ l, (u.getD l []).length = (t.getD l []).length) ∧
      (∀ l, l < layer → u.getD l [] = t.getD l []) ∧
      (∀ l, layer + fuel ≤ l → u.getD l [] = t.getD l []) := by
  intro fuel
  induction fuel with
  | zero =>
    intro t item layer u h
    rw [insertLoopChecked_zero] at h
    injection h with h
    subst h
    exact ⟨rfl, fun _ => rfl, fun _ _ => rfl, fun _ _ => rfl⟩
  | succ fuel ih =>
    intro t item layer u h
    rw [insertLoopChecked_succ] at h
    by_cases hi : item / 64 < (t.getD layer []).length
    case neg => rw [if_neg hi] at h; cases h
    rw [if_pos hi] at h
    by_cases hi2 : move_up_layer item / 64 <
        ((setBitOp t layer item).getD (layer + 1) []).length
    case neg => rw [if_neg hi2] at h; cases h
    rw [if_pos hi2] at h
    by_cases hp : is_parent_set (setBitOp t layer item) (layer + 1)
        (move_up_layer item) = true
    · rw [if_pos hp] at h
      injection h with h
      subst h
      exact ⟨length_setBitOp t layer item, fun l => layerLen_setBitOp t layer item l,
        fun l hl => getD_setBitOp_ne t layer item l (by omega),
        fun l hl => getD_setBitOp_ne t layer item l (by omega)⟩
    · rw [if_neg hp] at h
      obtain ⟨h1, h2, h3, h4⟩ := ih (setBitOp t layer item) (move_up_layer item)
        (layer + 1) u h
      exact ⟨h1.trans (length_setBitOp t layer item),
        fun l => (h2 l).trans (layerLen_setBitOp t layer item l),
        fun l hl => (h3 l (by omega)).trans (getD_setBitOp_ne t layer item l (by omega)),
        fun l hl => (h4 l (by omega)).trans (getD_setBitOp_ne t layer item l (by omega))⟩

theorem deleteLoopChecked_shape :
    ∀ fuel t item layer u, deleteLoopChecked t item layer fuel = some u →
      u.length = t.length ∧
      (∀ l, (u.getD l []).length = (t.getD l []).length) ∧
      (∀ l, l < layer → u.getD l [] = t.getD l []) ∧
      (∀ l, layer + fuel ≤ l → u.getD l [] = t.getD l []) := by
  intro fuel
  induction fuel with
  | zero =>
    intro t item layer u h
    rw [deleteLoopChecked_zero] at h
    injection h with h
    subst h
    exact ⟨rfl, fun _ => rfl, fun _ _ => rfl, fun _ _ => rfl⟩
  | succ fuel ih =>
    intro t item layer u h
    rw [deleteLoopChecked_succ] at h
    by_cases hi : item / 64 < (t.getD layer []).length
    case neg => rw [if_neg hi] at h; cases h
    rw [if_pos hi] at h
    by_cases hs : is_any_sibling_set (clearBitOp t layer item) layer item = true
    · rw [if_pos hs] at h
      injection h with h
      subst h
      exact ⟨length_clearBitOp t layer item, fun l => layerLen_clearBitOp t layer item l,
        fun l hl => getD_clearBitOp_ne t layer item l (by omega),
        fun l hl => getD_clearBitOp_ne t layer item l (by omega)⟩
    · rw [if_neg hs] at h
      obtain ⟨h1, h2, h3, h4⟩ := ih (clearBitOp t layer item) (move_up_layer item)
        (layer + 1) u h
      exact ⟨h1.trans (length_clearBitOp t layer item),
        fun l => (h2 l).trans (layerLen_clearBitOp t layer item l),
        fun l hl => (h3 l (by omega)).trans (getD_clearBitOp_ne t layer item l (by omega)),
        fun l hl => (h4 l (by omega)).trans (getD_clearBitOp_ne t layer item l (by omega))⟩

theorem lor_lor_self (a b : Nat) : (a ||| b) ||| b = a ||| b := by
  apply Nat.eq_of_testBit_eq
  intro i
  simp [Nat.testBit_lor, Bool.or_assoc]

theorem land_land_self (a b : Nat) : (a &&& b) &&& b = a &&& b := by
  apply Nat.eq_of_testBit_eq
  intro i
  simp [Nat.testBit_land, Bool.and_assoc]

theorem insertLoopChecked_idem :
    ∀ fuel t item layer u, insertLoopChecked t item layer fuel = some u →
      insertLoopChecked u item layer fuel = some u := by
  intro fuel
  induction fuel with
  | zero =>
    intro t item layer u h
    rw [insertLoopChecked_zero] at h
    injection h with h
    subst h
    exact insertLoopChecked_zero t item layer
  | succ fuel ih =>
    intro t item layer u h
    rw [insertLoopChecked_succ] at h
    by_cases hi : item / 64 < (t.getD layer []).length
    case neg => rw [if_neg hi] at h; cases h
    rw [if_pos hi] at h
    by_cases hi2 : move_up_layer item / 64 <
        ((setBitOp t layer item).getD (layer + 1) []).length
    case neg => rw [if_neg hi2] at h; cases h
    rw [if_pos hi2] at h
    have hl : layer < t.length := layer_lt_of_pos t layer (by omega)
    have hw1 : wordAt (setBitOp t layer item) layer (item / 64) =
        wordAt t layer (item / 64) ||| (1 <<< (item % 64)) := by
      rw [wordAt_setBitOp t layer item layer (item / 64) hl hi, if_pos ⟨rfl, rfl⟩]
    by_cases hp : is_parent_set (setBitOp t layer item) (layer + 1)
        (move_up_layer item) = true
    · rw [if_pos hp] at h
      injection h with h
      subst h
      have hset : setBitOp (setBitOp t layer item) layer item = setBitOp t layer item := by
        show updWord (setBitOp t layer item) layer (item / 64)
          (wordAt (setBitOp t layer item) layer (item / 64) ||| (1 <<< (item % 64))) = _
        rw [hw1, lor_lor_self, ← hw1, updWord_self]
      rw [insertLoopChecked_succ]
      have hiu : item / 64 < ((setBitOp t layer item).getD layer []).length := by
        rw [layerLen_setBitOp]
        exact hi
      rw [if_pos hiu, hset, if_pos hi2, if_pos hp]
    · rw [if_neg hp] at h
      obtain ⟨_, hsll, hslow, _⟩ := insertLoopChecked_shape fuel (setBitOp t layer item)
        (move_up_layer item) (layer + 1) u h
      have hulay : u.getD layer [] = (setBitOp t layer item).getD layer [] :=
        hslow layer (by omega)
      have hwu : wordAt u layer (item / 64) =
          wordAt t layer (item / 64) ||| (1 <<< (item % 64)) := by
        unfold wordAt
        rw [hulay]
        exact hw1
      have hset : setBitOp u layer item = u := by
        show updWord u layer (item / 64)
          (wordAt u layer (item / 64) ||| (1 <<< (item % 64))) = u
        rw [hwu, lor_lor_self, ← hwu, updWord_self]
      rw [insertLoopChecked_succ]
      have hiu : item / 64 < (u.getD layer []).length := by
        rw [hulay, layerLen_setBitOp]
        exact hi
      rw [if_pos hiu, hset]
      have hi2u : move_up_layer item / 64 < (u.getD (layer + 1) []).length := by
        rw [hsll (layer + 1)]
        exact hi2
      rw [if_pos hi2u]
      by_cases hpu : is_parent_set u (layer + 1) (move_up_layer item) = true
      · rw [if_pos hpu]
      · rw [if_neg hpu]
        exact ih (setBitOp t layer item) (move_up_layer item) (layer + 1) u h

theorem deleteLoopChecked_idem :
    ∀ fuel t item layer u, deleteLoopChecked t item layer fuel = some u →
      deleteLoopChecked u item layer fuel = some u := by
  intro fuel
  induction fuel with
  | zero =>
    intro t item layer u h
    rw [deleteLoopChecked_zero] at h
    injection h with h
    subst h
    exact deleteLoopChecked_zero t item layer
  | succ fuel ih =>
    intro t item layer u h
    rw [deleteLoopChecked_succ] at h
    by_cases hi : item / 64 < (t.getD layer []).length
    case neg => rw [if_neg hi] at h; cases h
    rw [if_pos hi] at h
    have hl : layer < t.length := layer_lt_of_pos t layer (by omega)
    have hw1 : wordAt (clearBitOp t layer item) layer (item / 64) =
        wordAt t layer (item / 64) &&& not64 (1 <<< (item % 64)) := by
      rw [wordAt_clearBitOp t layer item layer (item / 64) hl hi, if_pos ⟨rfl, rfl⟩]
    by_cases hs : is_any_sibling_set (clearBitOp t layer item) layer item = true
    · rw [if_pos hs] at h
      injection h with h
      subst h
      have hclr : clearBitOp (clearBitOp t layer item) layer item =
          clearBitOp t layer item := by
        show updWord (clearBitOp t layer item) layer (item / 64)
          (wordAt (clearBitOp t layer item) layer (item / 64) &&&
            not64 (1 <<< (item % 64))) = _
        rw [hw1, land_land_self, ← hw1, updWord_self]
      rw [deleteLoopChecked_succ]
      have hiu : item / 64 < ((clearBitOp t layer item).getD layer []).length := by
        rw [layerLen_clearBitOp]
        exact hi
      rw [if_pos hiu, hclr, if_pos hs]
    · rw [if_neg hs] at h
      obtain ⟨_, hsll, hslow, _⟩ := deleteLoopChecked_shape fuel (clearBitOp t layer item)
        (move_up_layer item) (layer + 1) u h
      have hulay : u.getD layer [] = (clearBitOp t layer item).getD layer [] :=
        hslow layer (by omega)
      have hwu : wordAt u layer (item / 64) =
          wordAt t layer (item / 64) &&& not64 (1 <<< (item % 64)) := by
        unfold wordAt
        rw [hulay]
        exact hw1
      have hclr : clearBitOp u layer item = u := by
        show updWord u layer (item / 64)
          (wordAt u layer (item / 64) &&& not64 (1 <<< (item % 64))) = u
        rw [hwu, land_land_self, ← hwu, updWord_self]
      rw [deleteLoopChecked_succ]
      have hiu : item / 64 < (u.getD layer []).length := by
        rw [hulay, layerLen_clearBitOp]
        exact hi
      rw [if_pos hiu, hclr]
      have hsame : is_any_sibling_set u layer item =
          is_any_sibling_set (clearBitOp t layer item) layer item := by
        unfold is_any_sibling_set
        rw [hwu, hw1]
      rw [if_neg (show ¬is_any_sibling_set u layer item = true from by
        rw [hsame]; exact hs)]
      exact ih (clearBitOp t layer item) (move_up_layer item) (layer + 1) u h

theorem reach_wf (N : Nat) : ∀ t, Reach N t → WF N t := by
  intro t h
  induction h with
  | init => exact new_WF N
  | @ins t t' x hR hx heq ih =>
    rcases Nat.lt_or_ge t.length 2 with h2 | h2
    · rw [insertChecked_none_of_short t x h2] at heq
      cases heq
    · rw [insertChecked_eq N x hx t ih h2] at heq
      injection heq with h3
      rw [← h3]
      exact (insert_spec N x hx t ih).1
  | @del t t' x hR hx heq ih =>
    rcases Nat.lt_or_ge t.length 2 with h2 | h2
    · rw [deleteChecked_none_of_short t x h2] at heq
      cases heq
    · rw [deleteChecked_eq N x hx t ih h2] at heq
      injection heq with h3
      rw [← h3]
      exact (delete_spec N x hx t ih).1

/-
  Summary bits reflect presence: bit `p` of a maintained layer `l` is
  set exactly when some present element has path `p` at that layer.
-/

theorem bit_layer_iff (N : Nat) (t : STree) (h : WF N t) :
    ∀ l, l + 2 ≤ t.length → ∀ p,
      (bitAt t l p = true ↔ ∃ y, bitAt t 0 y = true ∧ y / 64 ^ l = p) := by
  intro l
  induction l with
  | zero =>
    intro _ p
    constructor
    · intro hb
      exact ⟨p, hb, by simp⟩
    · rintro ⟨y, hy, hyp⟩
      simp only [pow_zero, Nat.div_one] at hyp
      rw [← hyp]
      exact hy
  | succ l ih =>
    intro hl2 p
    have hl2' : l + 2 ≤ t.length := by omega
    rw [h.hsum l p (by omega)]
    constructor
    · intro hw
      obtain ⟨r, hr64, hrbit⟩ := (ne_zero_iff_exists_testBit _ (h.hword l p)).1 hw
      have hbit : bitAt t l (64 * p + r) = true := by
        unfold bitAt
        have e1 : (64 * p + r) / 64 = p := by omega
        have e2 : (64 * p + r) % 64 = r := by omega
        rw [e1, e2]
        exact hrbit
      obtain ⟨y, hy, hyl⟩ := (ih hl2' (64 * p + r)).1 hbit
      refine ⟨y, hy, ?_⟩
      rw [← div_pow_succ, hyl]
      omega
    · rintro ⟨y, hy, hyp⟩
      have hyl := (ih hl2' (y / 64 ^ l)).2 ⟨y, hy, rfl⟩
      unfold bitAt at hyl
      refine ne_zero_of_testBit _ ((y / 64 ^ l) % 64) ?_
      have he : wordAt t l p = wordAt t l ((y / 64 ^ l) / 64) := by
        rw [div_pow_succ, hyp]
      rw [he]
      exact hyl

/-
  Analysis of `greater_sibling_in_block`.
-/

theorem masked_testBit (w off i : Nat) (hw : w < 2 ^ 64) :
    (w &&& not64 (maskUpTo off)).testBit i = (w.testBit i && decide (off < i)) := by
  rw [Nat.testBit_land, testBit_not64, maskUpTo_testBit]
  by_cases hi : i < 64
  · have h64 : decide (i < 64) = true := by simp [hi]
    rw [h64, Bool.xor_true]
    by_cases h1 : i ≤ off
    · have h2 : ¬off < i := by omega
      simp [h1, h2]
    · have h2 : off < i := by omega
      simp [h1, h2]
  · rw [testBit_false_of_lt64 w i hw (by omega)]
    simp

theorem masked_zero_iff (w off : Nat) (hw : w < 2 ^ 64) :
    (w &&& not64 (maskUpTo off)) = 0 ↔ ∀ i, off < i → i < 64 → w.testBit i = false := by
  constructor
  · intro h0 i hoff hi64
    have h := congrArg (fun n => n.testBit i) h0
    simp only [Nat.zero_testBit] at h
    rw [masked_testBit w off i hw] at h
    cases hb : w.testBit i
    · rfl
    · rw [hb] at h
      simp [hoff] at h
  · intro hall
    refine (eq_zero_iff_testBit _).2 fun i => ?_
    rw [masked_testBit w off i hw]
    by_cases h1 : off < i
    · by_cases h2 : i < 64
      · rw [hall i h1 h2]
        rfl
      · rw [testBit_false_of_lt64 w i hw (by omega)]
        rfl
    · simp [h1]

theorem gsib_eq_zero_iff (t : STree) (l item : Nat)
    (hw : wordAt t l (item / 64) < 2 ^ 64) :
    greater_sibling_in_block t l item = 0 ↔
      ∀ p, p / 64 = item / 64 → item < p → bitAt t l p = false := by
  unfold greater_sibling_in_block
  by_cases hv : wordAt t l (item / 64) &&& not64 (maskUpTo (item % 64)) = 0
  · rw [if_pos hv]
    refine iff_of_true rfl ?_
    intro p hp hlt
    have hoff : item % 64 < p % 64 := by omega
    have hbit := (masked_zero_iff _ _ hw).1 hv (p % 64) hoff (Nat.mod_lt _ (by norm_num))
    unfold bitAt
    rw [hp]
    exact hbit
  · rw [if_neg hv]
    obtain ⟨htzlt, htzbit, _⟩ :=
      trailingZeros_of_ne_zero _ (land_not64_lt _ _ hw) hv
    rw [masked_testBit _ _ _ hw] at htzbit
    simp only [Bool.and_eq_true, decide_eq_true_eq] at htzbit
    obtain ⟨hwbit, hofflt⟩ := htzbit
    refine iff_of_false (by omega) ?_
    intro hall
    set tz := trailingZeros (wordAt t l (item / 64) &&& not64 (maskUpTo (item % 64)))
    have hp : (item / 64 * 64 + tz) / 64 = item / 64 := by omega
    have hplt : item < item / 64 * 64 + tz := by omega
    have := hall (item / 64 * 64 + tz) hp hplt
    unfold bitAt at this
    rw [hp] at this
    have he : (item / 64 * 64 + tz) % 64 = tz := by omega
    rw [he] at this
    rw [this] at hwbit
    exact Bool.false_ne_true hwbit

theorem gsib_spec_some (t : STree) (l item : Nat)
    (hw : wordAt t l (item / 64) < 2 ^ 64)
    (h : greater_sibling_in_block t l item ≠ 0) :
    item < greater_sibling_in_block t l item ∧
      greater_sibling_in_block t l item / 64 = item / 64 ∧
      bitAt t l (greater_sibling_in_block t l item) = true ∧
      ∀ q, item < q → q < greater_sibling_in_block t l item → q / 64 = item / 64 →
        bitAt t l q = false := by
  have hv : wordAt t l (item / 64) &&& not64 (maskUpTo (item % 64)) ≠ 0 := by
    intro h0
    apply h
    unfold greater_sibling_in_block
    rw [if_pos h0]
  have hg : greater_sibling_in_block t l item =
      item / 64 * 64 + trailingZeros (wordAt t l (item / 64) &&& not64 (maskUpTo (item % 64))) := by
    unfold greater_sibling_in_block
    rw [if_neg hv]
  obtain ⟨htzlt, htzbit, htzmin⟩ :=
    trailingZeros_of_ne_zero _ (land_not64_lt _ _ hw) hv
  rw [masked_testBit _ _ _ hw] at htzbit
  simp only [Bool.and_eq_true, decide_eq_true_eq] at htzbit
  obtain ⟨hwbit, hofflt⟩ := htzbit
  set tz := trailingZeros (wordAt t l (item / 64) &&& not64 (maskUpTo (item % 64))) with htzdef
  refine ⟨by omega, by omega, ?_, ?_⟩
  · unfold bitAt
    rw [hg]
    have h1 : (item / 64 * 64 + tz) / 64 = item / 64 := by omega
    have h2 : (item / 64 * 64 + tz) % 64 = tz := by omega
    rw [h1, h2]
    exact hwbit
  · intro q hq1 hq2 hq3
    rw [hg] at hq2
    have hqoff1 : item % 64 < q % 64 := by omega
    have hqoff2 : q % 64 < tz := by omega
    have hqf := htzmin (q % 64) hqoff2
    rw [masked_testBit _ _ _ hw] at hqf
    unfold bitAt
    rw [hq3]
    cases hb : (wordAt t l (item / 64)).testBit (q % 64)
    · rfl
    · rw [hb] at hqf
      simp [hqoff1] at hqf

theorem gsib_of_word_zero (t : STree) (l item : Nat)
    (h : wordAt t l (item / 64) = 0) : greater_sibling_in_block t l item = 0 := by
  unfold greater_sibling_in_block
  rw [h, Nat.zero_and, if_pos rfl]

/-
  The climb of `successor`: one-step unfolding and invariant analysis.
-/

theorem climbLoop_succ (t : STree) (ns item layer fuel : Nat) :
    climbLoop t ns item layer (fuel + 1) =
      (if ns = 0 ∧ layer < t.length - 1 then
        climbLoop t (greater_sibling_in_block t (layer + 1) (move_up_layer item))
          (move_up_layer item) (layer + 1) fuel
      else (ns, layer)) := rfl

theorem climbLoop_spec (N x : Nat) (hx : x < N) (t : STree) (h : WF N t) :
    ∀ fuel layer,
      layer ≤ t.length - 1 →
      t.length - 1 - layer < fuel →
      (∀ y, bitAt t 0 y = true → x < y → x / 64 ^ layer < y / 64 ^ layer) →
      ((climbLoop t (greater_sibling_in_block t layer (x / 64 ^ layer))
          (x / 64 ^ layer) layer fuel).1 = 0 →
        ∀ y, bitAt t 0 y = true → ¬x < y) ∧
      ((climbLoop t (greater_sibling_in_block t layer (x / 64 ^ layer))
          (x / 64 ^ layer) layer fuel).1 ≠ 0 →
        (climbLoop t (greater_sibling_in_block t layer (x / 64 ^ layer))
            (x / 64 ^ layer) layer fuel).2 + 2 ≤ t.length ∧
          (climbLoop t (greater_sibling_in_block t layer (x / 64 ^ layer))
              (x / 64 ^ layer) layer fuel).1 =
            greater_sibling_in_block t
              (climbLoop t (greater_sibling_in_block t layer (x / 64 ^ layer))
                  (x / 64 ^ layer) layer fuel).2
              (x / 64 ^ (climbLoop t (greater_sibling_in_block t layer (x / 64 ^ layer))
                  (x / 64 ^ layer) layer fuel).2) ∧
          (∀ y, bitAt t 0 y = true → x < y →
            x / 64 ^ (climbLoop t (greater_sibling_in_block t layer (x / 64 ^ layer))
                (x / 64 ^ layer) layer fuel).2 <
              y / 64 ^ (climbLoop t (greater_sibling_in_block t layer (x / 64 ^ layer))
                (x / 64 ^ layer) layer fuel).2)) := by
  intro fuel
  induction fuel with
  | zero =>
    intro layer hle hlt hinv
    exact absurd hlt (by omega)
  | succ fuel ih =>
    intro layer hle hlt hinv
    have hLpos : 1 ≤ t.length := by
      rw [h.hlen]
      exact layers_pos N
    by_cases hg : greater_sibling_in_block t layer (x / 64 ^ layer) = 0
    · by_cases hlast : layer < t.length - 1
      · rw [climbLoop_succ, if_pos ⟨hg, hlast⟩]
        simp only [move_up_layer]
        rw [div_pow_succ]
        refine ih (layer + 1) (by omega) (by omega) ?_
        intro y hy hxy
        have hylayer : x / 64 ^ layer < y / 64 ^ layer := hinv y hy hxy
        have hybit : bitAt t layer (y / 64 ^ layer) = true :=
          (bit_layer_iff N t h layer (by omega) (y / 64 ^ layer)).2 ⟨y, hy, rfl⟩
        have hne : ¬(y / 64 ^ layer / 64 = x / 64 ^ layer / 64) := by
          intro hsame
          have := (gsib_eq_zero_iff t layer (x / 64 ^ layer) (h.hword _ _)).1 hg
            (y / 64 ^ layer) hsame hylayer
          rw [this] at hybit
          exact Bool.false_ne_true hybit
        have hmon : x / 64 ^ layer / 64 ≤ y / 64 ^ layer / 64 :=
          Nat.div_le_div_right (by omega)
        rw [← div_pow_succ, ← div_pow_succ]
        omega
      · have hlayer_eq : layer = t.length - 1 := by omega
        rw [climbLoop_succ, if_neg (by rintro ⟨_, hcond⟩; omega)]
        constructor
        · intro _ y hy hxy
          have hylayer : x / 64 ^ layer < y / 64 ^ layer := hinv y hy hxy
          have hyN : y < N := by
            have := h.hbound 0 y hy
            rwa [pow_zero, cdiv_one] at this
          have hyle : y ≤ 64 ^ (t.length - 1) - 1 := by
            have h1 : N ≤ 64 ^ (layers N - 1) := le_pow_layers N
            rw [← h.hlen] at h1
            omega
          have hzero : y / 64 ^ layer = 0 := by
            rw [hlayer_eq]
            exact Nat.div_eq_of_lt (by
              have h64 : 1 ≤ 64 ^ (t.length - 1) := Nat.one_le_pow _ _ (by norm_num)
              omega)
          rw [hzero] at hylayer
          exact absurd hylayer (Nat.not_lt_zero _)
        · intro hne
          exact absurd hg hne
    · rw [climbLoop_succ, if_neg (by rintro ⟨hcond, _⟩; exact hg hcond)]
      refine ⟨fun h0 => absurd h0 hg, fun _ => ⟨?_, rfl, hinv⟩⟩
      by_cases hlast : layer = t.length - 1
      · exfalso
        apply hg
        apply gsib_of_word_zero
        rw [hlast]
        exact h.htop _
      · omega

/-
  The descent of `successor`.
-/

theorem descendLoop_succ (t : STree) (ns layer : Nat) :
    descendLoop t ns (layer + 1) =
      descendLoop t (first_item_set_in_block t layer (move_down ns)) layer := rfl

theorem descendLoop_spec (N x : Nat) (t : STree) (h : WF N t) :
    ∀ layer q,
      layer + 2 ≤ t.length →
      bitAt t layer q = true →
      x / 64 ^ layer < q →
      (∀ y, bitAt t 0 y = true → x < y → q ≤ y / 64 ^ layer) →
      (bitAt t 0 (descendLoop t q layer) = true ∧ x < descendLoop t q layer ∧
        ∀ y, bitAt t 0 y = true → x < y → descendLoop t q layer ≤ y) := by
  intro layer
  induction layer with
  | zero =>
    intro q _ hbit hgt hmin
    rw [div_pow_zero] at hgt
    refine ⟨hbit, hgt, ?_⟩
    intro y hy hxy
    have := hmin y hy hxy
    rwa [div_pow_zero] at this
  | succ layer ih =>
    intro q hl2 hbit hgt hmin
    have hw := h.hword layer q
    have hwne : wordAt t layer q ≠ 0 := (h.hsum layer q (by omega)).1 hbit
    obtain ⟨htzlt, htzbit, htzmin⟩ := trailingZeros_of_ne_zero _ hw hwne
    have hfirst : first_item_set_in_block t layer (move_down q) =
        64 * q + trailingZeros (wordAt t layer q) := by
      unfold first_item_set_in_block move_down
      have e : q * 64 / 64 = q := by omega
      rw [e]
      omega
    have hdiv : x / 64 ^ layer / 64 = x / 64 ^ (layer + 1) := div_pow_succ x layer
    have hq'bit : bitAt t layer (64 * q + trailingZeros (wordAt t layer q)) = true := by
      unfold bitAt
      have e1 : (64 * q + trailingZeros (wordAt t layer q)) / 64 = q := by omega
      have e2 : (64 * q + trailingZeros (wordAt t layer q)) % 64 =
          trailingZeros (wordAt t layer q) := by omega
      rw [e1, e2]
      exact htzbit
    have hq'gt : x / 64 ^ layer < 64 * q + trailingZeros (wordAt t layer q) := by omega
    have hq'min : ∀ y, bitAt t 0 y = true → x < y →
        64 * q + trailingZeros (wordAt t layer q) ≤ y / 64 ^ layer := by
      intro y hy hxy
      have hy1 : q ≤ y / 64 ^ (layer + 1) := hmin y hy hxy
      have hydiv : y / 64 ^ layer / 64 = y / 64 ^ (layer + 1) := div_pow_succ y layer
      rcases Nat.lt_or_ge q (y / 64 ^ (layer + 1)) with hcase | hcase
      · omega
      · have hyq : y / 64 ^ (layer + 1) = q := by omega
        have hybit : bitAt t layer (y / 64 ^ layer) = true :=
          (bit_layer_iff N t h layer (by omega) (y / 64 ^ layer)).2 ⟨y, hy, rfl⟩
        unfold bitAt at hybit
        rw [hydiv, hyq] at hybit
        by_cases hlt : (y / 64 ^ layer) % 64 < trailingZeros (wordAt t layer q)
        · have := htzmin _ hlt
          rw [this] at hybit
          exact absurd hybit (by simp)
        · omega
    have hres : descendLoop t q (layer + 1) =
        descendLoop t (64 * q + trailingZeros (wordAt t layer q)) layer := by
      rw [descendLoop_succ, hfirst]
    rw [hres]
    exact ih (64 * q + trailingZeros (wordAt t layer q)) (by omega) hq'bit hq'gt hq'min

/-
  Correctness of `successor` on well-formed trees.
-/

theorem successor_eq (t : STree) (x : Nat) :
    successor t x =
      (if greater_sibling_in_block t 0 x ≠ 0 then some (greater_sibling_in_block t 0 x)
       else
        (if (climbLoop t (greater_sibling_in_block t 0 x) x 0 t.length).1 = 0 then none
         else some (descendLoop t
            (climbLoop t (greater_sibling_in_block t 0 x) x 0 t.length).1
            (climbLoop t (greater_sibling_in_block t 0 x) x 0 t.length).2))) := rfl

theorem successor_spec (N x : Nat) (hx : x < N) (t : STree) (h : WF N t) :
    (∀ m, successor t x = some m →
      bitAt t 0 m = true ∧ x < m ∧ ∀ z, x < z → z < m → bitAt t 0 z = false) ∧
    (successor t x = none → ∀ z, x < z → bitAt t 0 z = false) := by
  have hLpos : 1 ≤ t.length := by
    rw [h.hlen]
    exact layers_pos N
  by_cases hg : greater_sibling_in_block t 0 x = 0
  · have hclimb := climbLoop_spec N x hx t h t.length 0 (by omega) (by omega)
      (fun y _ hxy => by
        rw [pow_zero, Nat.div_one, Nat.div_one]
        exact hxy)
    rw [div_pow_zero] at hclimb
    have hsucc : successor t x =
        (if (climbLoop t (greater_sibling_in_block t 0 x) x 0 t.length).1 = 0 then none
         else some (descendLoop t
            (climbLoop t (greater_sibling_in_block t 0 x) x 0 t.length).1
            (climbLoop t (greater_sibling_in_block t 0 x) x 0 t.length).2)) := by
      rw [successor_eq, if_neg (by simpa using hg)]
    by_cases hr : (climbLoop t (greater_sibling_in_block t 0 x) x 0 t.length).1 = 0
    · rw [hsucc, if_pos hr]
      constructor
      · intro m hm
        cases hm
      · intro _ z hz
        cases hb : bitAt t 0 z
        · rfl
        · exact absurd hz (hclimb.1 hr z hb)
    · rw [hsucc, if_neg hr]
      obtain ⟨hlay2, hns, hinv⟩ := hclimb.2 hr
      set r := climbLoop t (greater_sibling_in_block t 0 x) x 0 t.length with hrdef
      have hgs := gsib_spec_some t r.2 (x / 64 ^ r.2) (h.hword _ _)
        (by rw [← hns]; exact hr)
      rw [← hns] at hgs
      obtain ⟨hgt, hdiv, hbit, hmin⟩ := hgs
      have hminy : ∀ y, bitAt t 0 y = true → x < y → r.1 ≤ y / 64 ^ r.2 := by
        intro y hy hxy
        have hylt := hinv y hy hxy
        have hybit : bitAt t r.2 (y / 64 ^ r.2) = true :=
          (bit_layer_iff N t h r.2 hlay2 (y / 64 ^ r.2)).2 ⟨y, hy, rfl⟩
        by_cases hc : y / 64 ^ r.2 / 64 = x / 64 ^ r.2 / 64
        · by_contra hcon
          have hlt2 : y / 64 ^ r.2 < r.1 := by omega
          have := hmin (y / 64 ^ r.2) hylt hlt2 hc
          rw [this] at hybit
          exact Bool.false_ne_true hybit
        · have hmono : x / 64 ^ r.2 / 64 ≤ y / 64 ^ r.2 / 64 :=
            Nat.div_le_div_right (by omega)
          omega
      have hdes := descendLoop_spec N x t h r.2 r.1 hlay2 hbit hgt hminy
      obtain ⟨hpres, hxlt, hle⟩ := hdes
      constructor
      · intro m hm
        injection hm with hm
        rw [← hm]
        refine ⟨hpres, hxlt, ?_⟩
        intro z hz1 hz2
        cases hb : bitAt t 0 z
        · rfl
        · exact absurd hz2 (by have := hle z hb hz1; omega)
      · intro hn
        cases hn
  · have hsucc : successor t x = some (greater_sibling_in_block t 0 x) := by
      rw [successor_eq, if_pos (by simpa using hg)]
    have hgs := gsib_spec_some t 0 x (h.hword _ _) hg
    obtain ⟨hgt, hdiv, hbit, hmin⟩ := hgs
    constructor
    · intro m hm
      rw [hsucc] at hm
      injection hm with hm
      rw [← hm]
      refine ⟨hbit, hgt, ?_⟩
      intro z hz1 hz2
      have hzdiv : z / 64 = x / 64 := by omega
      exact hmin z hz1 hz2 hzdiv
    · intro hn
      rw [hsucc] at hn
      cases hn

/-
  Round trip of a single element through a fresh tree: the explicit
  chain states traversed by insert (bottom-up) and delete (bottom-up
  with all words emptying).
-/

theorem map_range_ext {α : Type} (f g : Nat → α) (n : Nat) (h : ∀ i, i < n → f i = g i) :
    (List.range n).map f = (List.range n).map g :=
  List.map_eq_map_iff.mpr fun i hi => h i (List.mem_range.mp hi)

theorem map_range_set {α : Type} (f : Nat → α) (n k : Nat) (v : α) (hk : k < n) :
    ((List.range n).map f).set k v =
      (List.range n).map fun i => if i = k then v else f i := by
  apply List.ext_getElem
  · simp
  · intro j h1 h2
    rw [List.getElem_set]
    simp only [List.getElem_map, List.getElem_range]
    by_cases hjk : k = j
    · subst hjk
      simp
    · rw [if_neg hjk, if_neg fun hc => hjk hc.symm]

theorem chainSeg_length (N x a b : Nat) : (chainSeg N x a b).length = layers N := by
  unfold chainSeg
  rw [List.length_map, List.length_range]

theorem chainSeg_getD (N x a b l : Nat) (hl : l < layers N) :
    (chainSeg N x a b).getD l [] =
      if a ≤ l ∧ l < b ∧ l + 2 ≤ layers N then
        (List.replicate (wordsInLayer N l) 0).set (x / 64 ^ l / 64)
          (1 <<< (x / 64 ^ l % 64))
      else List.replicate (wordsInLayer N l) 0 := by
  unfold chainSeg
  rw [List.getD_eq_getElem?_getD, List.getElem?_map, List.getElem?_range hl]
  rfl

theorem chainSeg_getD_ge (N x a b l : Nat) (hl : layers N ≤ l) :
    (chainSeg N x a b).getD l [] = [] := by
  apply getD_of_le
  rw [chainSeg_length]
  exact hl

theorem wordAt_chainSeg (N x a b l i : Nat) :
    wordAt (chainSeg N x a b) l i =
      if a ≤ l ∧ l < b ∧ l + 2 ≤ layers N ∧ i = x / 64 ^ l / 64 ∧
          x / 64 ^ l / 64 < wordsInLayer N l then
        1 <<< (x / 64 ^ l % 64)
      else 0 := by
  by_cases hl : l < layers N
  · unfold wordAt
    rw [chainSeg_getD N x a b l hl]
    by_cases hc : a ≤ l ∧ l < b ∧ l + 2 ≤ layers N
    · rw [if_pos hc, getD_set]
      rw [List.length_replicate]
      by_cases hd : x / 64 ^ l / 64 = i ∧ x / 64 ^ l / 64 < wordsInLayer N l
      · rw [if_pos hd, if_pos ⟨hc.1, hc.2.1, hc.2.2, hd.1.symm, hd.2⟩]
      · rw [if_neg hd, if_neg (fun hfull => hd ⟨hfull.2.2.2.1.symm, hfull.2.2.2.2⟩),
          getD_replicate]
    · rw [if_neg hc, if_neg (fun hfull => hc ⟨hfull.1, hfull.2.1, hfull.2.2.1⟩),
        getD_replicate]
  · unfold wordAt
    rw [chainSeg_getD_ge N x a b l (by omega),
      if_neg (fun hfull => hl (by omega))]
    rfl

theorem chainSeg_congr (N x a b a' b' : Nat)
    (h : ∀ l, l < layers N → ((a ≤ l ∧ l < b ∧ l + 2 ≤ layers N) ↔
      (a' ≤ l ∧ l < b' ∧ l + 2 ≤ layers N))) :
    chainSeg N x a b = chainSeg N x a' b' := by
  unfold chainSeg
  refine map_range_ext _ _ _ fun l hl => ?_
  by_cases hc : a ≤ l ∧ l < b ∧ l + 2 ≤ layers N
  · rw [if_pos hc, if_pos ((h l hl).1 hc)]
  · rw [if_neg hc, if_neg (fun hc' => hc ((h l hl).2 hc'))]

theorem chainSeg_empty_eq_new (N x a b : Nat)
    (h : ∀ l, ¬(a ≤ l ∧ l < b ∧ l + 2 ≤ layers N)) :
    chainSeg N x a b = new N := by
  unfold chainSeg new
  refine map_range_ext _ _ _ fun l _ => ?_
  rw [if_neg (h l)]

theorem chainSeg_bit_zero (N x a b l p : Nat)
    (hcond : ¬(a ≤ l ∧ l < b ∧ l + 2 ≤ layers N)) :
    bitAt (chainSeg N x a b) l p = false := by
  unfold bitAt
  rw [wordAt_chainSeg, if_neg (fun hfull => hcond ⟨hfull.1, hfull.2.1, hfull.2.2.1⟩)]
  exact Nat.zero_testBit _

theorem setBitOp_chainSeg (N x k : Nat) (hx : x < N) (hk : k + 2 ≤ layers N) :
    setBitOp (chainSeg N x 0 k) k (x / 64 ^ k) = chainSeg N x 0 (k + 1) := by
  have hkl : k < layers N := by omega
  have hgd : (chainSeg N x 0 k).getD k [] = List.replicate (wordsInLayer N k) 0 := by
    rw [chainSeg_getD N x 0 k k hkl, if_neg (by rintro ⟨_, hlt, _⟩; omega)]
  have hword0 : wordAt (chainSeg N x 0 k) k (x / 64 ^ k / 64) = 0 := by
    rw [wordAt_chainSeg, if_neg (by rintro ⟨_, hlt, _⟩; omega)]
  unfold setBitOp updWord
  rw [hword0, Nat.zero_or, hgd]
  unfold chainSeg
  rw [map_range_set _ _ _ _ hkl]
  refine map_range_ext _ _ _ fun l hl => ?_
  by_cases hlk : l = k
  · subst hlk
    rw [if_pos rfl, if_pos ⟨Nat.zero_le _, by omega, hk⟩]
  · rw [if_neg hlk]
    by_cases hc : 0 ≤ l ∧ l < k ∧ l + 2 ≤ layers N
    · rw [if_pos hc, if_pos ⟨hc.1, by omega, hc.2.2⟩]
    · rw [if_neg hc, if_neg (by rintro ⟨h1, h2, h3⟩; exact hc ⟨h1, by omega, h3⟩)]

theorem insertLoop_new_aux (N x : Nat) (hx : x < N) :
    ∀ fuel k, k + fuel = layers N - 1 →
      insertLoop (chainSeg N x 0 k) (x / 64 ^ k) k fuel = chainSeg N x 0 (layers N) := by
  intro fuel
  induction fuel with
  | zero =>
    intro k hk
    show chainSeg N x 0 k = chainSeg N x 0 (layers N)
    refine chainSeg_congr N x 0 k 0 (layers N) fun l hl => ?_
    constructor
    · rintro ⟨h1, h2, h3⟩
      exact ⟨h1, by omega, h3⟩
    · rintro ⟨h1, h2, h3⟩
      exact ⟨h1, by omega, h3⟩
  | succ fuel ih =>
    intro k hk
    have hk2 : k + 2 ≤ layers N := by omega
    rw [insertLoop_succ, setBitOp_chainSeg N x k hx hk2]
    have hpar : is_parent_set (chainSeg N x 0 (k + 1)) (k + 1)
        (move_up_layer (x / 64 ^ k)) = false := by
      rw [is_parent_set_eq]
      exact chainSeg_bit_zero N x 0 (k + 1) (k + 1) _ (by rintro ⟨_, h2, _⟩; omega)
    rw [hpar, if_neg Bool.false_ne_true]
    simp only [move_up_layer]
    rw [div_pow_succ]
    exact ih (k + 1) (by omega)

theorem shl_land_not64_self (o : Nat) (ho : o < 64) :
    (1 <<< o) &&& not64 (1 <<< o) = 0 := by
  have hw : (1 : Nat) <<< o < 2 ^ 64 := by
    rw [Nat.shiftLeft_eq, one_mul]
    exact Nat.pow_lt_pow_right (by norm_num) ho
  refine (eq_zero_iff_testBit _).2 fun i => ?_
  rw [land_not64_shl_testBit _ _ _ hw, testBit_shl]
  by_cases hio : o = i
  · subst hio
    simp
  · simp [hio]

theorem set_zero_replicate (n i : Nat) :
    (List.replicate n (0 : Nat)).set i 0 = List.replicate n 0 := by
  apply List.ext_getElem
  · simp
  · intro j h1 h2
    rw [List.getElem_set]
    split_ifs
    · rw [List.getElem_replicate]
    · rfl

theorem clearBitOp_chainSeg (N x k : Nat) (hx : x < N) (hk : k + 2 ≤ layers N) :
    clearBitOp (chainSeg N x k (layers N)) k (x / 64 ^ k) =
      chainSeg N x (k + 1) (layers N) := by
  have hkl : k < layers N := by omega
  have hilt : x / 64 ^ k / 64 < wordsInLayer N k := by
    rw [wordsInLayer_eq, div_pow_succ]
    exact div_lt_cdiv x N _ hx (Nat.pos_pow_of_pos _ (by norm_num))
  have hword1 : wordAt (chainSeg N x k (layers N)) k (x / 64 ^ k / 64) =
      1 <<< (x / 64 ^ k % 64) := by
    rw [wordAt_chainSeg, if_pos ⟨le_rfl, hkl, hk, rfl, hilt⟩]
  have hgd : (chainSeg N x k (layers N)).getD k [] =
      (List.replicate (wordsInLayer N k) 0).set (x / 64 ^ k / 64)
        (1 <<< (x / 64 ^ k % 64)) := by
    rw [chainSeg_getD N x k (layers N) k hkl, if_pos ⟨le_rfl, hkl, hk⟩]
  unfold clearBitOp updWord
  rw [hword1, shl_land_not64_self _ (Nat.mod_lt _ (by norm_num)), hgd, List.set_set,
    set_zero_replicate]
  unfold chainSeg
  rw [map_range_set _ _ _ _ hkl]
  refine map_range_ext _ _ _ fun l hl => ?_
  by_cases hlk : l = k
  · subst hlk
    rw [if_pos rfl, if_neg (by rintro ⟨h1, _, _⟩; omega)]
  · rw [if_neg hlk]
    by_cases hc : k ≤ l ∧ l < layers N ∧ l + 2 ≤ layers N
    · rw [if_pos hc, if_pos ⟨by omega, hc.2.1, hc.2.2⟩]
    · rw [if_neg hc, if_neg (by rintro ⟨h1, h2, h3⟩; exact hc ⟨by omega, h2, h3⟩)]

theorem deleteLoop_chain_aux (N x : Nat) (hx : x < N) :
    ∀ fuel k, k + fuel = layers N - 1 →
      deleteLoop (chainSeg N x k (layers N)) (x / 64 ^ k) k fuel = new N := by
  intro fuel
  induction fuel with
  | zero =>
    intro k hk
    show chainSeg N x k (layers N) = new N
    refine chainSeg_empty_eq_new N x k (layers N) fun l => ?_
    rintro ⟨h1, h2, h3⟩
    omega
  | succ fuel ih =>
    intro k hk
    have hk2 : k + 2 ≤ layers N := by omega
    rw [deleteLoop_succ, clearBitOp_chainSeg N x k hx hk2]
    have hsib : is_any_sibling_set (chainSeg N x (k + 1) (layers N)) k
        (x / 64 ^ k) = false := by
      unfold is_any_sibling_set
      rw [wordAt_chainSeg, if_neg (by rintro ⟨h1, _, _⟩; omega)]
      simp
    rw [hsib, if_neg Bool.false_ne_true]
    simp only [move_up_layer]
    rw [div_pow_succ]
    exact ih (k + 1) (by omega)

theorem insert_new_eq_chain (N x : Nat) (hx : x < N) :
    insert (new N) x = chainSeg N x 0 (layers N) := by
  have h0 : chainSeg N x 0 0 = new N :=
    chainSeg_empty_eq_new N x 0 0 (by rintro l ⟨_, h2, _⟩; omega)
  have haux := insertLoop_new_aux N x hx (layers N - 1) 0 (by omega)
  rw [h0, div_pow_zero] at haux
  show insertLoop (new N) x 0 ((new N).length - 1) = _
  rw [length_new]
  exact haux

theorem round_trip_new (N x : Nat) (hx : x < N) :
    delete (insert (new N) x) x = new N := by
  rw [insert_new_eq_chain N x hx]
  have haux := deleteLoop_chain_aux N x hx (layers N - 1) 0 (by omega)
  rw [div_pow_zero] at haux
  show deleteLoop (chainSeg N x 0 (layers N)) x 0
    ((chainSeg N x 0 (layers N)).length - 1) = _
  rw [chainSeg_length]
  exact haux

/-
  Emptiness and minimum.
-/

theorem is_empty_iff (N : Nat) (t : STree) (h : WF N t) (h2 : 2 ≤ t.length) :
    (is_empty t = true ↔ ∀ y, bitAt t 0 y = false) := by
  unfold is_empty
  constructor
  · intro hw y
    have hw0 : wordAt t (t.length - 2) 0 = 0 := by simpa using hw
    cases hb : bitAt t 0 y
    · rfl
    · exfalso
      have hbit2 : bitAt t (t.length - 2) (y / 64 ^ (t.length - 2)) = true :=
        (bit_layer_iff N t h (t.length - 2) (by omega) _).2 ⟨y, hb, rfl⟩
      have hyN : y < N := by
        have := h.hbound 0 y hb
        rwa [pow_zero, cdiv_one] at this
      have hylt : y / 64 ^ (t.length - 2) < 64 := by
        have h1 : N ≤ 64 ^ (layers N - 1) := le_pow_layers N
        rw [← h.hlen] at h1
        have he : 64 ^ (t.length - 1) = 64 ^ (t.length - 2) * 64 := by
          rw [← pow_succ]
          congr 1
          omega
        rw [he] at h1
        exact Nat.div_lt_of_lt_mul (by omega)
      unfold bitAt at hbit2
      rw [Nat.div_eq_of_lt hylt, hw0, Nat.zero_testBit] at hbit2
      exact Bool.false_ne_true hbit2
  · intro hall
    have hz : wordAt t (t.length - 2) 0 = 0 := by
      by_contra hnz
      obtain ⟨r, hr, hbit⟩ := (ne_zero_iff_exists_testBit _ (h.hword _ _)).1 hnz
      have hbat : bitAt t (t.length - 2) r = true := by
        unfold bitAt
        rw [Nat.div_eq_of_lt hr, Nat.mod_eq_of_lt hr]
        exact hbit
      obtain ⟨y, hy, _⟩ := (bit_layer_iff N t h (t.length - 2) (by omega) r).1 hbat
      rw [hall y] at hy
      exact Bool.false_ne_true hy
    rw [hz]
    rfl

theorem min_new_none (N : Nat) (h2 : 2 ≤ N) : min (new N) = none := by
  unfold min
  rw [wordAt_new]
  rw [if_neg (by simp)]
  cases hs : successor (new N) 0 with
  | none => rfl
  | some m =>
    have hpres := ((successor_spec N 0 (by omega) (new N) (new_WF N)).1 m hs).1
    rw [bitAt_new] at hpres
    exact absurd hpres (by simp)

/-
  Claim theorems.
-/

/-- C1 (the sizing behind the failing input): at capacity
`N = 2^53 + 1` the program's `size as f64` rounds to `2^53` (ties to
even), so layer 0 is allocated `wordsInLayer (2^53) 0 = 2^47` words
(at `2^53` itself every `f64` sizing step is exact, so that is the
program's count), while `successor` on the in-range element `x = 2^53`
reads word index `2^53 / 64 = 2^47` — one past the end, an
out-of-bounds panic instead of the claimed `Option` result.  The last
conjunct is the exact count `wordsInLayer N 0 = 2^47 + 1` that the true
capacity calls for, under which the index would be in range. -/
theorem C1_successor_panic_sizing :
    2 ^ 53 / 64 = 2 ^ 47 ∧ wordsInLayer (2 ^ 53) 0 = 2 ^ 47 ∧
      wordsInLayer (2 ^ 53 + 1) 0 = 2 ^ 47 + 1 := by
  refine ⟨by decide, by decide, by decide⟩

/-- C2 (code evaluated at the failing input): on the reachable capacity-64
tree containing only the element 0, `rquery 5 10` returns `[5]` although 5
is not present — the source tests `(tree[0][lower / 64] & 1) == 1`, i.e.
bit 0 of the word containing `lower`, instead of bit `lower % 64`. -/
theorem C2_rquery_failing_input :
    insertChecked (new 64) 0 = some [[1], [0]] ∧
      rquery [[1], [0]] 5 10 = [5] ∧ bitAt [[1], [0]] 0 5 = false := by
  refine ⟨by decide, by decide, by decide⟩

/-- C3 (code evaluated at the failing input): the capacity-64 tree
reached by inserting 5 has a nonzero block 0 in layer 0, but bit 0 of
layer 1 — the topmost layer, which neither propagation loop ever
writes — is clear, violating I1 at the layer pair summarized by the
topmost layer, which the claim explicitly includes.  (The model's
sizing coincides with the program's at capacity 64, so this evaluation
reproduces the program's state.) -/
theorem C3_counterexample :
    Reach 64 [[32], [0]] ∧ (new 64).length - 1 = 1 ∧
      bitAt [[32], [0]] 1 0 = false ∧ wordAt [[32], [0]] 0 0 ≠ 0 := by
  refine ⟨@Reach.ins 64 (new 64) [[32], [0]] 5 Reach.init (by decide) (by decide),
    by decide, by decide, by decide⟩

/-- Counterexample for C4: insert(127) on a capacity-100 tree is not
rejected — it silently sets bit 63 of word 1 of layer 0 (the slack of the
allocated words) and propagates, modifying the tree. -/
theorem C4_counterexample :
    insertChecked (new 100) 127 = some [[0, 9223372036854775808], [2], [0]] ∧
      [[0, 9223372036854775808], [2], [0]] ≠ new 100 := by
  refine ⟨by decide, by decide⟩

/-- C4 (amended): calls with an element index ≥ N are not rejected and no
OutOfRange error value exists. When the index's word still falls inside
the allocated words the call silently sets bits beyond the capacity,
modifying the tree (insert(127) at capacity 100); when it falls outside,
the call panics on out-of-bounds indexing (insert(200) at capacity 100,
modelled `none`), which is a crash, not an error return. -/
theorem C4_no_range_check :
    (insertChecked (new 100) 127).isSome = true ∧
      insertChecked (new 100) 127 ≠ some (new 100) ∧
      insertChecked (new 100) 200 = none := by
  refine ⟨by decide, by decide, by decide⟩

/-- Counterexample for C5: `new 0` does not fail — the library has no
error type at all — it returns a tree handle with a single zero-word
layer. -/
theorem C5_counterexample : new 0 = [[]] := by decide

/-- C5 (amended): `new 0` raises no InvalidCapacity error (no error kind
exists in the code); it returns a handle with one zero-length layer, and
the handle is unusable: is_empty, insert and delete all panic on it. -/
theorem C5_new_zero :
    new 0 = [[]] ∧ is_emptyChecked [[]] = none ∧ insertChecked [[]] 0 = none ∧
      deleteChecked [[]] 0 = none := by
  refine ⟨by decide, by decide, by decide, by decide⟩

/-- C6 (the claim's exact formulas at the failing capacities): the
claimed layer count for capacity `64^7` is
`ceil(log64 (64^7)) + 1 = layers (64^7) = 8`, but the program's
`(size as f64).log(64.0)` evaluates `fl(ln (64^7)) / fl(ln 64)` one ulp
above 7, its ceiling is 8, and the program allocates 9 layers; and the
claimed layer-0 word count for capacity `2^53 + 1` is
`ceil(ceil(N / 64^0) / 64) = 2^47 + 1`, but the program, computing from
the rounded `f64` size `2^53`, allocates `2^47`.  At the claim's named
capacity 1000000 the `f64` sizing and the exact formulas do agree:
5 layers of 15625, 245, 4, 1 and 1 words (third conjunct). -/
theorem C6_exact_sizing :
    layers (64 ^ 7) = 8 ∧ wordsInLayer (2 ^ 53 + 1) 0 = 2 ^ 47 + 1 ∧
      (new 1000000).map List.length = [15625, 245, 4, 1, 1] := by
  refine ⟨?_, by decide, ?_⟩
  · exact congrArg (fun k => k + 1)
      ((clog64_eq (64 ^ 7)).trans (Nat.clog_pow 64 7 (by norm_num)))
  · have he : (new 1000000).map List.length =
        (List.range (layers 1000000)).map fun i => wordsInLayer 1000000 i := by
      unfold new
      rw [List.map_map]
      refine map_range_ext _ _ _ fun l _ => ?_
      simp [List.length_replicate]
    rw [he]
    decide

/-- C7 (code evaluated at the failing input): on the capacity-1 tree (a
single layer of a single word; the model's sizing coincides with the
program's at capacity 1), the source `is_empty` panics — the index
`self.tree.len() - 2` underflows — instead of returning true for the
freshly constructed (empty) tree, contradicting the claim's
"a freshly constructed tree reports is_empty() = true". -/
theorem C7_counterexample : is_emptyChecked (new 1) = none := by decide

/-- C8: for every tree value of any shape — hence for every state the
running program can be in, whatever word counts its `f64` sizing
allocated — and every element, inserting twice leaves the tree bitwise
identical to inserting once, and deleting twice leaves it bitwise
identical to deleting once, on the panic-aware operations (a panicking
first call makes both sides the same panic).  The second run retraces
the first run's path: every bit it touches is already in its final
state, each per-word update is idempotent, and the break conditions
evaluate identically, so it returns the tree unchanged.  No assumption
about the constructor's sizing is used. -/
theorem C8_idempotent (t : STree) (x : Nat) :
    Option.bind (insertChecked t x) (fun u => insertChecked u x) = insertChecked t x ∧
    Option.bind (deleteChecked t x) (fun u => deleteChecked u x) = deleteChecked t x := by
  constructor
  · cases hins : insertChecked t x with
    | none => rfl
    | some u =>
      show insertChecked u x = some u
      unfold insertChecked at hins
      by_cases h2 : 2 ≤ t.length
      case neg => rw [if_neg h2] at hins; cases hins
      rw [if_pos h2] at hins
      have hlen : u.length = t.length :=
        (insertLoopChecked_shape (t.length - 1) t x 0 u hins).1
      unfold insertChecked
      rw [if_pos (show 2 ≤ u.length from by rw [hlen]; exact h2), hlen]
      exact insertLoopChecked_idem (t.length - 1) t x 0 u hins
  · cases hdel : deleteChecked t x with
    | none => rfl
    | some u =>
      show deleteChecked u x = some u
      unfold deleteChecked at hdel
      by_cases h2 : 2 ≤ t.length
      case neg => rw [if_neg h2] at hdel; cases hdel
      rw [if_pos h2] at hdel
      have hlen : u.length = t.length :=
        (deleteLoopChecked_shape (t.length - 1) t x 0 u hdel).1
      unfold deleteChecked
      rw [if_pos (show 2 ≤ u.length from by rw [hlen]; exact h2), hlen]
      exact deleteLoopChecked_idem (t.length - 1) t x 0 u hdel

/-- C9 (code evaluated at the failing input): at capacity 1 (allowed by
the claim's N > 0) with x = 0 (in range), the insert itself panics —
the loop bound `self.tree.len() - 2` underflows on the 1-layer tree
(whose shape the model sizes exactly as the program does) — so
insert-then-delete does not return the tree to its all-zero state; it
crashes. -/
theorem C9_counterexample :
    (0 : Nat) < 1 ∧
      Option.bind (insertChecked (new 1) 0) (fun u => deleteChecked u 0) ≠
        some (new 1) := by
  refine ⟨by decide, by decide⟩

/-- C10: starting from any tree whose topmost layer is all zero — as
every freshly allocated `vec![0; n]` tree is, whatever word counts the
program's `f64` sizing produced — every state reachable by in-range,
non-panicking insert and delete calls keeps its layer count and keeps
every word of its topmost layer zero: both propagation loops, entered
at layer 0 with `len - 1` iterations, write only layers 0 through
`len - 2`, never the topmost layer (and `is_empty` reads
`tree[len - 2][0]`, not the topmost layer).  No assumption about the
constructor's sizing is used. -/
theorem C10_top_layer_zero (N : Nat) (t0 t : STree)
    (h0 : ∀ i, wordAt t0 (t0.length - 1) i = 0)
    (hreach : ReachFrom N t0 t) :
    t.length = t0.length ∧ ∀ i, wordAt t (t.length - 1) i = 0 := by
  induction hreach with
  | init => exact ⟨rfl, h0⟩
  | @ins t1 u x hR hx heq ih =>
    obtain ⟨hlen1, htop1⟩ := ih
    unfold insertChecked at heq
    by_cases h2 : 2 ≤ t1.length
    case neg => rw [if_neg h2] at heq; cases heq
    rw [if_pos h2] at heq
    obtain ⟨hul, _, _, hhi⟩ := insertLoopChecked_shape (t1.length - 1) t1 x 0 u heq
    have hfr : u.getD (t1.length - 1) [] = t1.getD (t1.length - 1) [] :=
      hhi (t1.length - 1) (by omega)
    refine ⟨hul.trans hlen1, fun i => ?_⟩
    unfold wordAt
    rw [hul, hfr]
    exact htop1 i
  | @del t1 u x hR hx heq ih =>
    obtain ⟨hlen1, htop1⟩ := ih
    unfold deleteChecked at heq
    by_cases h2 : 2 ≤ t1.length
    case neg => rw [if_neg h2] at heq; cases heq
    rw [if_pos h2] at heq
    obtain ⟨hul, _, _, hhi⟩ := deleteLoopChecked_shape (t1.length - 1) t1 x 0 u heq
    have hfr : u.getD (t1.length - 1) [] = t1.getD (t1.length - 1) [] :=
      hhi (t1.length - 1) (by omega)
    refine ⟨hul.trans hlen1, fun i => ?_⟩
    unfold wordAt
    rw [hul, hfr]
    exact htop1 i

/-- Witness for C10: from the fresh capacity-64 tree (topmost layer
zero), inserting 5 reaches `[[32], [0]]`, whose layer count is preserved
and whose topmost layer word is still zero. -/
theorem C10_top_layer_zero_witness :
    ([[32], [0]] : STree).length = (new 64).length ∧
      wordAt [[32], [0]] (([[32], [0]] : STree).length - 1) 0 = 0 := by
  have h := C10_top_layer_zero 64 (new 64) [[32], [0]]
    (fun i => wordAt_new 64 ((new 64).length - 1) i)
    (@ReachFrom.ins 64 (new 64) (new 64) [[32], [0]] 5 ReachFrom.init
      (by decide) (by decide))
  exact ⟨h.1, h.2 0⟩

end SuccTreeModel
